import Mathlib

/-!
Shallow embedding of the PrivacyShield-for-AI masking engine
(src/lib/masking-engine.js).

JS strings are modelled as lists of UTF-16 code units (`List Nat`; every
code unit is < 65536 in a real execution) and offsets are code-unit
offsets, matching `String.prototype.slice` and `match.index`.  A detection
rule's compiled regex is modelled extensionally by its `matchAll`
behaviour: a function from the subject string to the list of matches
(matched text plus start index) in the order `[...s.matchAll(re)]` yields
them.  `Map` objects are modelled as insertion-ordered association lists.
-/

/-- One element of `[...s.matchAll(re)]`: `str` is `match[0]` and `idx` is
`match.index`. -/
structure RMatch where
  str : List Nat
  idx : Nat
deriving DecidableEq

/-- One entry of `this.patterns`: the compiled regex (as its `matchAll`
behaviour), the `label` used inside placeholders (as code units) and the
human-readable `description`. -/
structure Pattern where
  matcher : List Nat → List RMatch
  label : List Nat
  description : String

/-- One record pushed onto `detections` in `MaskingEngine.mask`. -/
structure Detection where
  type : String
  description : String
  original : List Nat
  masked : List Nat
  startIndex : Nat
  endIndex : Nat
deriving DecidableEq

/-- The value returned by `MaskingEngine.mask`. -/
structure MaskResult where
  maskedText : List Nat
  detections : List Detection
  mappingTable : List (List Nat × List Nat)
deriving DecidableEq

/-- `String.fromCharCode` keeps the low 16 bits of its argument. -/
def jsCharCode (n : Nat) : Nat := n % 65536

/-- The mask label built by `mask`:
`` `[${label}_${String.fromCharCode(64 + counter)}]` `` — code units:
91 is `[`, 95 is `_`, 93 is `]`. -/
def mkPh (lab : List Nat) (c : Nat) : List Nat :=
  91 :: lab ++ [95, jsCharCode (64 + c), 93]

/-- `originalText.startsWith('[') && originalText.endsWith(']')`. -/
def isBrk (s : List Nat) : Bool :=
  decide (s.head? = some 91) && decide (s.getLast? = some 93)

/-- `Map.prototype.set`: update in place when the key exists, else append. -/
def mapSet (m : List (List Nat × List Nat)) (k v : List Nat) :
    List (List Nat × List Nat) :=
  if m.any (fun kv => decide (kv.1 = k)) then
    m.map (fun kv => if kv.1 = k then (k, v) else kv)
  else m ++ [(k, v)]

/-- `Map.prototype.get` (`some` exactly when the key is present). -/
def mapGet (m : List (List Nat × List Nat)) (k : List Nat) : Option (List Nat) :=
  (m.find? (fun kv => decide (kv.1 = k))).map (fun kv => kv.2)

/-- The mutable state of one `mask` pass: the current `maskedText`, the
`detections` array, `this.mappingTable` and `this.counter` (a JS object;
an absent key reads as 0 thanks to the `!this.counter[k]` initialisation,
and the whole object is reset to `{}` at the top of `mask`). -/
structure MaskState where
  maskedText : List Nat
  detections : List Detection
  mapping : List (List Nat × List Nat)
  counter : String → Nat

/-- The body of the inner `for` loop of `mask` for one match: skip matches
that are already bracket-delimited, otherwise bump the rule's counter,
build the placeholder, record the mapping entry, splice the placeholder
into the text and push a detection. -/
def maskStep (key : String) (pat : Pattern) (m : RMatch) (st : MaskState) :
    MaskState :=
  if isBrk m.str then st
  else
    let c := st.counter key + 1
    let ph := mkPh pat.label c
    { maskedText :=
        st.maskedText.take m.idx ++ ph ++ st.maskedText.drop (m.idx + m.str.length)
      detections :=
        st.detections ++ [⟨key, pat.description, m.str, ph, m.idx, m.idx + m.str.length⟩]
      mapping := mapSet st.mapping ph m.str
      counter := fun k => if k = key then c else st.counter k }

/-- The inner loop of `mask`; the source iterates the matches from last to
first, so this is invoked on the reversed match list. -/
def processRev (key : String) (pat : Pattern) : List RMatch → MaskState → MaskState
  | [], st => st
  | m :: rest, st => processRev key pat rest (maskStep key pat m st)

/-- `patternsToUse`: filter by `enabledPatterns.includes(key)` when an
enabled list is supplied, else all registered rules. -/
def usedRules (patterns : List (String × Pattern)) (enabled : Option (List String)) :
    List (String × Pattern) :=
  match enabled with
  | some keys => patterns.filter (fun kp => keys.contains kp.1)
  | none => patterns

/-- The outer loop of `mask` over the active rules; each rule's regex runs
against the current (cumulative) `maskedText`. -/
def runRules (rules : List (String × Pattern)) (st : MaskState) : MaskState :=
  rules.foldl (fun s kp => processRev kp.1 kp.2 ((kp.2.matcher s.maskedText).reverse) s) st

/-- `MaskingEngine.mask` (src/lib/masking-engine.js lines 59-124): empty
text short-circuits; otherwise the counter and mapping table are reset,
every active rule is processed, and the detection list is reversed before
being returned. -/
def mask (patterns : List (String × Pattern)) (text : List Nat)
    (enabled : Option (List String)) : MaskResult :=
  if text = [] then ⟨[], [], []⟩
  else
    let fin := runRules (usedRules patterns enabled) ⟨text, [], [], fun _ => 0⟩
    ⟨fin.maskedText, fin.detections.reverse, fin.mapping⟩

/-- Decidable "p begins s" on code-unit lists. -/
def prefB : List Nat → List Nat → Bool
  | [], _ => true
  | _ :: _, [] => false
  | a :: p, b :: s => a == b && prefB p s

/-- Decidable "p occurs somewhere in s". -/
def subB (p : List Nat) : List Nat → Bool
  | [] => prefB p []
  | c :: s => prefB p (c :: s) || subB p s

/-- ECMA-262 GetSubstitution for a string search value (no capture groups):
`$$` yields `$`, `$&` the matched (= search) string, a backtick after `$`
the part of the subject before the match, `$` followed by an apostrophe
the part after it; every other occurrence of `$` is literal (with no
captures, `$n` and a `$<` sequence are also literal). -/
def getSubAux (matched before after : List Nat) : List Nat → List Nat
  | [] => []
  | c :: r =>
    if c = 36 then
      match r with
      | [] => [36]
      | d :: r2 =>
        if d = 36 then 36 :: getSubAux matched before after r2
        else if d = 38 then matched ++ getSubAux matched before after r2
        else if d = 96 then before ++ getSubAux matched before after r2
        else if d = 39 then after ++ getSubAux matched before after r2
        else 36 :: d :: getSubAux matched before after r2
    else c :: getSubAux matched before after r

/-- `String.prototype.replaceAll` with a string pattern: scan the subject
left to right, replace every non-overlapping occurrence of `p`, expanding
GetSubstitution `$`-patterns in the replacement against the original
subject `s`.  `skip > 0` means the scanner is inside an already-replaced
occurrence (the remaining `skip` code units are consumed silently), which
makes the recursion structural.  An empty pattern matches at every
position, as in JS. -/
def jsReplaceAllAux (p r s : List Nat) : List Nat → Nat → Nat → List Nat
  | [], pos, skip =>
    if p.isEmpty && skip = 0 then getSubAux [] (s.take pos) (s.drop pos) r else []
  | c :: rest, pos, skip =>
    if skip > 0 then jsReplaceAllAux p r s rest (pos + 1) (skip - 1)
    else if prefB p (c :: rest) && !p.isEmpty then
      getSubAux p (s.take pos) (s.drop (pos + p.length)) r ++
        jsReplaceAllAux p r s rest (pos + 1) (p.length - 1)
    else if p.isEmpty then
      getSubAux [] (s.take pos) (s.drop pos) r ++
        c :: jsReplaceAllAux p r s rest (pos + 1) 0
    else c :: jsReplaceAllAux p r s rest (pos + 1) 0

/-- `s.replaceAll(p, r)` for JS strings. -/
def jsReplaceAll (p r s : List Nat) : List Nat :=
  jsReplaceAllAux p r s s 0 0

/-- Proof-side companion of `jsReplaceAll`: plain literal replacement,
equal to `jsReplaceAll` whenever the replacement contains no `$` (36). -/
def replaceAllPlain (p r : List Nat) (s : List Nat) : List Nat :=
  match s with
  | [] => if p.isEmpty then r else []
  | c :: rest =>
    if prefB p (c :: rest) && !p.isEmpty then
      r ++ replaceAllPlain p r (rest.drop (p.length - 1))
    else if p.isEmpty then r ++ c :: replaceAllPlain p r rest
    else c :: replaceAllPlain p r rest
termination_by s.length
decreasing_by
  all_goals simp [List.length_drop]
  all_goals omega

/-- `MaskingEngine.restore` (lines 132-143): falsy (empty) text returns
unchanged; otherwise one `replaceAll` per mapping entry, in the table's
insertion order.  (A JS `Map` is truthy even when empty, so an empty table
just iterates zero entries.) -/
def restore (maskedText : List Nat) (mappingTable : List (List Nat × List Nat)) :
    List Nat :=
  if maskedText = [] then maskedText
  else mappingTable.foldl (fun acc kv => jsReplaceAll kv.1 kv.2 acc) maskedText

/-- `MaskingEngine.addCustomPattern` (lines 152-158):
`this.patterns[key] = {regex, label, description}` — assigning to an
existing string key of a JS object overwrites it in place, otherwise the
key is appended in insertion order. -/
def addCustomPattern (patterns : List (String × Pattern)) (key : String)
    (regex : List Nat → List RMatch) (label : List Nat) (description : String) :
    List (String × Pattern) :=
  if patterns.any (fun kv => decide (kv.1 = key)) then
    patterns.map (fun kv => if kv.1 = key then (key, ⟨regex, label, description⟩) else kv)
  else patterns ++ [(key, ⟨regex, label, description⟩)]

/-- `MaskingEngine.removePattern` (lines 164-166): `delete this.patterns[key]`. -/
def removePattern (patterns : List (String × Pattern)) (key : String) :
    List (String × Pattern) :=
  patterns.filter (fun kv => !decide (kv.1 = key))

/-- Property access `this.patterns[key]`. -/
def lookupKey (patterns : List (String × Pattern)) (key : String) : Option Pattern :=
  (patterns.find? (fun kv => decide (kv.1 = key))).map (fun kv => kv.2)

/-- The engine object's own state: `this.patterns`, `this.mappingTable`,
`this.counter`. -/
structure Engine where
  patterns : List (String × Pattern)
  mappingTable : List (List Nat × List Nat)
  counter : String → Nat

/-- `MaskingEngine.mask` together with its effect on the engine object:
on empty text nothing is touched; otherwise `this.counter` and
`this.mappingTable` are reset at the start of the pass and left at their
final values, and the returned table is the fresh copy
`new Map(this.mappingTable)`. -/
def maskE (e : Engine) (text : List Nat) (enabled : Option (List String)) :
    Engine × MaskResult :=
  if text = [] then (e, ⟨[], [], []⟩)
  else
    let fin := runRules (usedRules e.patterns enabled) ⟨text, [], [], fun _ => 0⟩
    ({ e with mappingTable := fin.mapping, counter := fin.counter },
     ⟨fin.maskedText, fin.detections.reverse, fin.mapping⟩)

/-- The `matchAll` behaviour of a global regex whose pattern is the string
literal `lit`: all non-overlapping occurrences, left to right (`skip > 0`
means the scanner is inside a previous match).  Used to build concrete
registries in witnesses and counterexamples. -/
def findAllLitAux (lit : List Nat) : List Nat → Nat → Nat → List RMatch
  | [], _, _ => []
  | c :: rest, pos, skip =>
    if skip > 0 then findAllLitAux lit rest (pos + 1) (skip - 1)
    else if prefB lit (c :: rest) && !lit.isEmpty then
      ⟨lit, pos⟩ :: findAllLitAux lit rest (pos + 1) (lit.length - 1)
    else findAllLitAux lit rest (pos + 1) 0

/-- All matches of the literal-string global regex `lit` in `s`. -/
def findAllLit (lit s : List Nat) : List RMatch :=
  findAllLitAux lit s 0 0

/-- Consecutive matches are non-overlapping and in text order (each match
ends at or before the next one starts), as `matchAll` guarantees. -/
def chainEndsB : List RMatch → Bool
  | [] => true
  | [_] => true
  | a :: b :: rest =>
      decide (a.idx + a.str.length ≤ b.idx) && chainEndsB (b :: rest)

/-- Well-formedness of a `matchAll` result on subject `t`: every match is
an in-bounds substring of `t` at its index, and consecutive matches are
non-overlapping in text order. -/
def matchesWfB (t : List Nat) (ms : List RMatch) : Bool :=
  chainEndsB ms &&
    ms.all (fun m =>
      decide (m.idx + m.str.length ≤ t.length) &&
        decide ((t.drop m.idx).take m.str.length = m.str))

/-- `true` as soon as some `[` (91) has some `]` (93) anywhere after it:
the text contains a placeholder-shaped (bracket-delimited) substring. -/
def hasPhShape : List Nat → Bool
  | [] => false
  | c :: rest => (c == 91 && decide ((93 : Nat) ∈ rest)) || hasPhShape rest

/-! ### Proof-side descriptions of one rule's pass -/

/-- The detection built for one match given its counter value. -/
def detOf (key : String) (pat : Pattern) (mc : RMatch × Nat) : Detection :=
  ⟨key, pat.description, mc.1.str, mkPh pat.label mc.2, mc.1.idx, mc.1.idx + mc.1.str.length⟩

/-- Pair the matches (in text order) with their counter values; the source
consumes matches from last to first, so the head of the positional list
receives the highest counter `c` and counters descend along the list. -/
def withC : List RMatch → Nat → List (RMatch × Nat)
  | [], _ => []
  | m :: rest, c => (m, c) :: withC rest (c - 1)

/-- Pair the matches with counters ascending from `c + 1`, in the order the
source processes them (i.e. on an already-reversed match list). -/
def withCAsc : List RMatch → Nat → List (RMatch × Nat)
  | [], _ => []
  | m :: rest, c => (m, c + 1) :: withCAsc rest (c + 1)

/-- The masked text produced by splicing every (match, counter) item of a
sorted item list into `t`, keeping the part of `t` from `pos` on. -/
def spliceFrom (lab t : List Nat) (pos : Nat) : List (RMatch × Nat) → List Nat
  | [] => t.drop pos
  | (m, c) :: rest =>
      (t.take m.idx).drop pos ++ mkPh lab c ++
        spliceFrom lab t (m.idx + m.str.length) rest

/-- Like `spliceFrom` but the trailing fragment stops at offset `stop`
instead of running to the end of `t`. -/
def spliceUpTo (lab t : List Nat) (pos stop : Nat) : List (RMatch × Nat) → List Nat
  | [] => (t.take stop).drop pos
  | (m, c) :: rest =>
      (t.take m.idx).drop pos ++ mkPh lab c ++
        spliceUpTo lab t (m.idx + m.str.length) stop rest

/-- Adjacent match indices strictly increase (as `matchAll` guarantees). -/
def sortedIdxB : List RMatch → Bool
  | [] => true
  | [_] => true
  | a :: b :: rest => decide (a.idx < b.idx) && sortedIdxB (b :: rest)

/-- A registry rule whose matcher behaves like the global regex for the
string literal `lit` (used to build concrete registries). -/
def litRule (lit lab : List Nat) (d : String) : Pattern :=
  ⟨findAllLit lit, lab, d⟩

/-- A registry rule whose matcher reports at most the first occurrence of
`lit` (the `matchAll` behaviour of the corresponding non-global-like rule;
used where a uniform bound on match counts is wanted). -/
def onceRule (lit lab : List Nat) (d : String) : Pattern :=
  ⟨fun s => (findAllLit lit s).take 1, lab, d⟩

/-! ### Generic characterisation of one rule's inner loop -/

theorem processRev_append (key : String) (pat : Pattern) (a b : List RMatch)
    (st : MaskState) :
    processRev key pat (a ++ b) st = processRev key pat b (processRev key pat a st) := by
  induction a generalizing st with
  | nil => rfl
  | cons m rest ih => simp only [List.cons_append, processRev, List.append_eq, ih]

theorem procDets (key : String) (pat : Pattern) (ms : List RMatch) (st : MaskState) :
    (processRev key pat ms st).detections =
      st.detections ++
        (withCAsc (ms.filter (fun m => !isBrk m.str)) (st.counter key)).map
          (detOf key pat) := by
  induction ms generalizing st with
  | nil => simp [processRev, withCAsc]
  | cons m rest ih =>
    by_cases hb : isBrk m.str
    · simp [processRev, maskStep, hb, ih]
    · rw [processRev, ih]
      simp [maskStep, hb, withCAsc, detOf]

theorem procCounter (key : String) (pat : Pattern) (ms : List RMatch) (st : MaskState) :
    (processRev key pat ms st).counter = fun k =>
      if k = key then st.counter key + (ms.filter (fun m => !isBrk m.str)).length
      else st.counter k := by
  induction ms generalizing st with
  | nil => funext k; by_cases h : k = key <;> simp [processRev, h]
  | cons m rest ih =>
    by_cases hb : isBrk m.str
    · rw [processRev, ih]
      funext k
      by_cases h : k = key <;> simp [maskStep, hb, h]
    · rw [processRev, ih]
      funext k
      by_cases h : k = key <;> simp [maskStep, hb, h] <;> omega

theorem procMapping (key : String) (pat : Pattern) (ms : List RMatch) (st : MaskState) :
    (processRev key pat ms st).mapping =
      (withCAsc (ms.filter (fun m => !isBrk m.str)) (st.counter key)).foldl
        (fun acc mc => mapSet acc (mkPh pat.label mc.2) mc.1.str) st.mapping := by
  induction ms generalizing st with
  | nil => simp [processRev, withCAsc]
  | cons m rest ih =>
    by_cases hb : isBrk m.str
    · simp [processRev, maskStep, hb, ih]
    · rw [processRev, ih]
      simp [maskStep, hb, withCAsc]

theorem runRules_nil (st : MaskState) : runRules [] st = st := rfl

theorem runRules_cons (kp : String × Pattern) (rules : List (String × Pattern))
    (st : MaskState) :
    runRules (kp :: rules) st =
      runRules rules (processRev kp.1 kp.2 ((kp.2.matcher st.maskedText).reverse) st) := rfl

theorem runRules_dets_append (rules : List (String × Pattern)) (st : MaskState) :
    ∃ tail, (runRules rules st).detections = st.detections ++ tail := by
  induction rules generalizing st with
  | nil => exact ⟨[], by simp [runRules]⟩
  | cons kp rest ih =>
    rw [runRules_cons]
    obtain ⟨tl, htl⟩ := ih (processRev kp.1 kp.2 ((kp.2.matcher st.maskedText).reverse) st)
    refine ⟨(withCAsc (((kp.2.matcher st.maskedText).reverse).filter
      (fun m => !isBrk m.str)) (st.counter kp.1)).map (detOf kp.1 kp.2) ++ tl, ?_⟩
    rw [htl, procDets, List.append_assoc]

/-! ### Counter bookkeeping helpers -/

theorem withCAsc_mem_c (l : List RMatch) (c : Nat) :
    ∀ mc ∈ withCAsc l c, c < mc.2 ∧ mc.2 ≤ c + l.length := by
  induction l generalizing c with
  | nil => simp [withCAsc]
  | cons m rest ih =>
    intro mc hmc
    rcases List.mem_cons.mp hmc with h | h
    · subst h
      simp only [List.length_cons]
      omega
    · have := ih (c + 1) mc h
      simp only [List.length_cons]
      omega

theorem withCAsc_pairwise (l : List RMatch) (c : Nat) :
    (withCAsc l c).Pairwise (fun a b => a.2 < b.2) := by
  induction l generalizing c with
  | nil => simp [withCAsc]
  | cons m rest ih =>
    refine List.Pairwise.cons ?_ (ih (c + 1))
    intro mc hmc
    have := withCAsc_mem_c rest (c + 1) mc hmc
    simp only
    omega

theorem withCAsc_append (a b : List RMatch) (c : Nat) :
    withCAsc (a ++ b) c = withCAsc a c ++ withCAsc b (c + a.length) := by
  induction a generalizing c with
  | nil => simp [withCAsc]
  | cons m rest ih =>
    have hc : c + 1 + rest.length = c + (m :: rest).length := by
      simp only [List.length_cons]
      omega
    simp only [List.cons_append, List.append_eq, withCAsc, ih]
    rw [← hc]

theorem withCAsc_reverse (l : List RMatch) (c : Nat) :
    (withCAsc l.reverse c).reverse = withC l (c + l.length) := by
  induction l generalizing c with
  | nil => simp [withCAsc, withC]
  | cons m rest ih =>
    rw [List.reverse_cons, withCAsc_append, List.reverse_append]
    simp only [withCAsc, List.reverse_cons, List.reverse_nil, List.nil_append,
      List.length_reverse, List.singleton_append, List.length_cons]
    rw [ih, withC]
    have h1 : c + rest.length + 1 = c + (rest.length + 1) := by omega
    have h2 : c + (rest.length + 1) - 1 = c + rest.length := by omega
    rw [h1, h2]

theorem withC_map_fst (l : List RMatch) (N : Nat) :
    (withC l N).map (fun mc => mc.1) = l := by
  induction l generalizing N with
  | nil => simp [withC]
  | cons m rest ih => simp [withC, ih]

theorem withC_mem_c (l : List RMatch) (N : Nat) (h : l.length ≤ N) :
    ∀ mc ∈ withC l N, N - l.length < mc.2 ∧ mc.2 ≤ N := by
  induction l generalizing N with
  | nil => simp [withC]
  | cons m rest ih =>
    intro mc hmc
    rcases List.mem_cons.mp hmc with hh | hh
    · subst hh
      simp only [List.length_cons] at h ⊢
      omega
    · have hlen : rest.length ≤ N - 1 := by
        simp only [List.length_cons] at h
        omega
      have := ih (N - 1) hlen mc hh
      simp only [List.length_cons] at h ⊢
      omega

theorem withC_append_single (a : List RMatch) (x : RMatch) (N : Nat) :
    withC (a ++ [x]) N = withC a N ++ [(x, N - a.length)] := by
  induction a generalizing N with
  | nil => simp [withC]
  | cons m rest ih =>
    simp only [List.cons_append, List.append_eq, withC, ih, List.length_cons]
    have : N - 1 - rest.length = N - (rest.length + 1) := by omega
    rw [this]

theorem mkPh_lab_eq (l1 l2 : List Nat) (c1 c2 : Nat) (h : mkPh l1 c1 = mkPh l2 c2) :
    l1 = l2 ∧ jsCharCode (64 + c1) = jsCharCode (64 + c2) := by
  unfold mkPh at h
  injection h with h0 h'
  have hlen : l1.length = l2.length := by
    have hl := congrArg List.length h'
    simp only [List.append_eq, List.length_append, List.length_cons, List.length_nil] at hl
    omega
  obtain ⟨ha, hb⟩ := List.append_inj h' hlen
  refine ⟨ha, ?_⟩
  simpa using hb

theorem mkPh_inj_c (lab : List Nat) (c1 c2 : Nat) (h1 : c1 ≤ 26) (h2 : c2 ≤ 26)
    (h : mkPh lab c1 = mkPh lab c2) : c1 = c2 := by
  have := (mkPh_lab_eq lab lab c1 c2 h).2
  simp only [jsCharCode] at this
  omega

theorem sortedIdxB_pairwise : ∀ l : List RMatch, sortedIdxB l = true →
    l.Pairwise (fun a b => a.idx < b.idx) := by
  intro l
  induction l with
  | nil => simp
  | cons a l ih =>
    cases l with
    | nil => simp
    | cons b r =>
      intro h
      simp only [sortedIdxB, Bool.and_eq_true, decide_eq_true_eq] at h
      have hp := ih h.2
      refine List.Pairwise.cons ?_ hp
      intro x hx
      rcases List.mem_cons.mp hx with hh | hh
      · subst hh; exact h.1
      · have := (List.pairwise_cons.mp hp).1 x hh
        omega

theorem withCAsc_mem_fst (l : List RMatch) (c : Nat) (mc : RMatch × Nat)
    (h : mc ∈ withCAsc l c) : mc.1 ∈ l := by
  induction l generalizing c with
  | nil => simp [withCAsc] at h
  | cons m rest ih =>
    rcases List.mem_cons.mp h with hh | hh
    · subst hh; exact List.mem_cons_self _ _
    · exact List.mem_cons_of_mem _ (ih (c + 1) hh)

/-! ### C2: bracket-delimited matches are skipped everywhere -/

theorem mapSet_values (P : List Nat → Prop) (m : List (List Nat × List Nat))
    (k v : List Nat) (hM : ∀ kv ∈ m, P kv.2) (hv : P v) :
    ∀ kv ∈ mapSet m k v, P kv.2 := by
  unfold mapSet
  by_cases h : m.any (fun kv => decide (kv.1 = k))
  · rw [if_pos h]
    intro kv hkv
    obtain ⟨kv', hkv', heq⟩ := List.mem_map.mp hkv
    by_cases hk : kv'.1 = k
    · rw [if_pos hk] at heq; subst heq; exact hv
    · rw [if_neg hk] at heq; subst heq; exact hM kv' hkv'
  · rw [if_neg h]
    intro kv hkv
    rcases List.mem_append.mp hkv with hh | hh
    · exact hM kv hh
    · simp only [List.mem_singleton] at hh
      subst hh; exact hv

theorem foldl_mapSet_values (P : List Nat → Prop) (lab : List Nat)
    (items : List (RMatch × Nat)) (M : List (List Nat × List Nat))
    (hM : ∀ kv ∈ M, P kv.2) (hit : ∀ mc ∈ items, P mc.1.str) :
    ∀ kv ∈ items.foldl (fun acc mc => mapSet acc (mkPh lab mc.2) mc.1.str) M,
      P kv.2 := by
  induction items generalizing M with
  | nil => simpa using hM
  | cons mc rest ih =>
    simp only [List.foldl_cons]
    exact ih _ (mapSet_values P M _ _ hM (hit mc (List.mem_cons_self _ _)))
      (fun x hx => hit x (List.mem_cons_of_mem _ hx))

theorem runRules_brk_invariant (rules : List (String × Pattern)) (st : MaskState)
    (hd : ∀ d ∈ st.detections, isBrk d.original = false)
    (hm : ∀ kv ∈ st.mapping, isBrk kv.2 = false) :
    (∀ d ∈ (runRules rules st).detections, isBrk d.original = false) ∧
      (∀ kv ∈ (runRules rules st).mapping, isBrk kv.2 = false) := by
  induction rules generalizing st with
  | nil => exact ⟨hd, hm⟩
  | cons kp rest ih =>
    rw [runRules_cons]
    set st' := processRev kp.1 kp.2 ((kp.2.matcher st.maskedText).reverse) st with hst'
    refine ih st' ?_ ?_
    · intro d hdm
      rw [hst', procDets] at hdm
      rcases List.mem_append.mp hdm with hh | hh
      · exact hd d hh
      · obtain ⟨mc, hmc, heq⟩ := List.mem_map.mp hh
        have h1 := withCAsc_mem_fst _ _ mc hmc
        have h2 := List.of_mem_filter h1
        simp only [Bool.not_eq_true'] at h2
        rw [← heq]
        exact h2
    · intro kv hkv
      rw [hst', procMapping] at hkv
      refine foldl_mapSet_values (fun v => isBrk v = false) _ _ _ hm ?_ kv hkv
      intro mc hmc
      have h1 := withCAsc_mem_fst _ _ mc hmc
      have h2 := List.of_mem_filter h1
      simpa only [Bool.not_eq_true'] using h2

/-- C2: a detector/masker match whose matched text is placeholder-shaped
(bracket-delimited) contributes no detection entry and no mapping-table
value: every detection's `original` and every mapping value of any `mask`
call fails the bracket-delimited test, so re-masking masked text yields
zero new detections for spans that are valid placeholders. -/
theorem C2_no_double_masking (patterns : List (String × Pattern)) (t : List Nat)
    (en : Option (List String)) :
    (((mask patterns t en).detections.all (fun d => !isBrk d.original)) &&
      ((mask patterns t en).mappingTable.all (fun kv => !isBrk kv.2))) = true := by
  by_cases ht : t = []
  · subst ht; simp [mask]
  · have h := runRules_brk_invariant (usedRules patterns en)
      ⟨t, [], [], fun _ => 0⟩ (by simp) (by simp)
    simp only [mask, if_neg ht, Bool.and_eq_true, List.all_eq_true]
    constructor
    · intro d hdm
      have := h.1 d (List.mem_reverse.mp hdm)
      simp [this]
    · intro kv hkv
      have := h.2 kv hkv
      simp [this]

/-! ### C5: empty and whitespace-only input -/

theorem runRules_no_matches (rules : List (String × Pattern)) (st : MaskState)
    (h : ∀ kp ∈ rules, kp.2.matcher st.maskedText = []) : runRules rules st = st := by
  induction rules with
  | nil => rfl
  | cons kp rest ih =>
    rw [runRules_cons, h kp (List.mem_cons_self _ _), List.reverse_nil]
    simp only [processRev]
    exact ih fun kp' h' => h kp' (List.mem_cons_of_mem _ h')

/-- C5 (amended): empty input returns the empty result; whitespace-only
input is not special-cased — it flows through the normal path, and when no
active rule matches the text, `mask` returns the input itself as the
masked text with empty detections and mapping. -/
theorem C5_empty_and_unmatched_amended (patterns : List (String × Pattern))
    (en : Option (List String)) (t : List Nat) :
    mask patterns [] en = ⟨[], [], []⟩ ∧
      ((∀ kp ∈ usedRules patterns en, kp.2.matcher t = []) →
        mask patterns t en = ⟨t, [], []⟩) := by
  constructor
  · simp [mask]
  · intro h
    by_cases ht : t = []
    · subst ht; simp [mask]
    · have := runRules_no_matches (usedRules patterns en) ⟨t, [], [], fun _ => 0⟩ h
      simp only [mask, if_neg ht, this, List.reverse_nil]

/-- C5 counterexample: the whitespace-only input `" "` (code unit 32) is
not turned into empty masked text — `mask` returns it unchanged. -/
theorem C5_whitespace_cex :
    (mask [("name", litRule [97, 98, 99] [76] "n")] [32] none).maskedText = [32] ∧
      ([32] : List Nat) ≠ [] ∧
      (mask [("name", litRule [97, 98, 99] [76] "n")] [32] none).detections = [] ∧
      (mask [("name", litRule [97, 98, 99] [76] "n")] [32] none).mappingTable = [] := by
  decide

theorem C5_empty_and_unmatched_witness :
    mask [("name", litRule [97, 98, 99] [76] "n")] [] none = ⟨[], [], []⟩ ∧
      mask [("name", litRule [97, 98, 99] [76] "n")] [104, 105] none = ⟨[104, 105], [], []⟩ := by
  obtain ⟨h1, h2⟩ := C5_empty_and_unmatched_amended
    [("name", litRule [97, 98, 99] [76] "n")] none [104, 105]
  exact ⟨h1, h2 (by decide)⟩

/-! ### C8: mask is deterministic in the registry alone -/

theorem maskE_snd (e : Engine) (t : List Nat) (en : Option (List String)) :
    (maskE e t en).2 = mask e.patterns t en := by
  unfold maskE mask
  by_cases ht : t = [] <;> simp [ht]

theorem maskE_fst_patterns (e : Engine) (t : List Nat) (en : Option (List String)) :
    (maskE e t en).1.patterns = e.patterns := by
  unfold maskE
  by_cases ht : t = [] <;> simp [ht]

/-- C8: two `mask` calls with the same registry and the same input return
the same result, whatever the engine's mutable `counter`/`mappingTable`
state is (it is reset at the start of each pass), and in particular a
repeated call on the same engine reproduces the first result. -/
theorem C8_mask_deterministic (e1 e2 : Engine) (t : List Nat)
    (en : Option (List String)) (h : e1.patterns = e2.patterns) :
    (maskE e1 t en).2 = (maskE e2 t en).2 ∧
      (maskE (maskE e1 t en).1 t en).2 = (maskE e1 t en).2 := by
  constructor
  · rw [maskE_snd, maskE_snd, h]
  · rw [maskE_snd, maskE_snd, maskE_fst_patterns]

theorem C8_mask_deterministic_witness :
    (maskE ⟨[("a", litRule [97] [76] "a")], [], fun _ => 0⟩ [97, 98] none).2 =
        (maskE ⟨[("a", litRule [97] [76] "a")], [([91], [93])], fun _ => 7⟩ [97, 98] none).2 ∧
      (maskE (maskE ⟨[("a", litRule [97] [76] "a")], [], fun _ => 0⟩ [97, 98] none).1
          [97, 98] none).2 =
        (maskE ⟨[("a", litRule [97] [76] "a")], [], fun _ => 0⟩ [97, 98] none).2 :=
  C8_mask_deterministic ⟨[("a", litRule [97] [76] "a")], [], fun _ => 0⟩
    ⟨[("a", litRule [97] [76] "a")], [([91], [93])], fun _ => 7⟩ [97, 98] none rfl

/-! ### C9: registry operations -/

theorem lookupKey_cons (kv : String × Pattern) (ps : List (String × Pattern)) (k : String) :
    lookupKey (kv :: ps) k = if kv.1 = k then some kv.2 else lookupKey ps k := by
  simp only [lookupKey, List.find?]
  by_cases h : kv.1 = k
  · simp [h]
  · simp [h]

theorem addCP_cons_ne (kv : String × Pattern) (ps : List (String × Pattern))
    (key : String) (r : List Nat → List RMatch) (l : List Nat) (d : String)
    (h : kv.1 ≠ key) :
    addCustomPattern (kv :: ps) key r l d = kv :: addCustomPattern ps key r l d := by
  unfold addCustomPattern
  have hd : decide (kv.1 = key) = false := by simp [h]
  simp only [List.any_cons, hd, Bool.false_or]
  by_cases hp : ps.any (fun kv => decide (kv.1 = key))
  · rw [if_pos hp, if_pos hp]
    simp [h]
  · rw [if_neg hp, if_neg hp]
    simp

theorem addCP_cons_eq (kv : String × Pattern) (ps : List (String × Pattern))
    (key : String) (r : List Nat → List RMatch) (l : List Nat) (d : String)
    (h : kv.1 = key) :
    addCustomPattern (kv :: ps) key r l d =
      (key, ⟨r, l, d⟩) ::
        ps.map (fun kv => if kv.1 = key then (key, ⟨r, l, d⟩) else kv) := by
  unfold addCustomPattern
  have ha : (kv :: ps).any (fun kv => decide (kv.1 = key)) = true := by
    simp [List.any_cons, h]
  rw [if_pos ha]
  simp [h]

theorem lookupKey_map_other (ps : List (String × Pattern)) (key k : String)
    (p : Pattern) (h : k ≠ key) :
    lookupKey (ps.map (fun kv => if kv.1 = key then (key, p) else kv)) k =
      lookupKey ps k := by
  induction ps with
  | nil => rfl
  | cons kv rest ih =>
    simp only [List.map_cons]
    by_cases hk : kv.1 = key
    · rw [if_pos hk, lookupKey_cons, lookupKey_cons]
      have h1 : ¬ ((key, p).1 = k) := fun hh => h hh.symm
      have h2 : ¬ (kv.1 = k) := fun hh => h (by rw [← hh, hk])
      rw [if_neg h1, if_neg h2]
      exact ih
    · rw [if_neg hk, lookupKey_cons, lookupKey_cons]
      by_cases h2 : kv.1 = k
      · rw [if_pos h2, if_pos h2]
      · rw [if_neg h2, if_neg h2]
        exact ih

theorem lookupKey_add_self (ps : List (String × Pattern)) (key : String)
    (r : List Nat → List RMatch) (l : List Nat) (d : String) :
    lookupKey (addCustomPattern ps key r l d) key = some ⟨r, l, d⟩ := by
  induction ps with
  | nil =>
    simp [addCustomPattern, lookupKey, List.find?]
  | cons kv rest ih =>
    by_cases hk : kv.1 = key
    · rw [addCP_cons_eq kv rest key r l d hk, lookupKey_cons]
      simp
    · rw [addCP_cons_ne kv rest key r l d hk, lookupKey_cons, if_neg hk]
      exact ih

theorem lookupKey_add_other (ps : List (String × Pattern)) (key k : String)
    (r : List Nat → List RMatch) (l : List Nat) (d : String) (h : k ≠ key) :
    lookupKey (addCustomPattern ps key r l d) k = lookupKey ps k := by
  induction ps with
  | nil =>
    simp only [addCustomPattern, List.any_nil, Bool.false_eq_true, if_false,
      List.nil_append, lookupKey_cons]
    rw [if_neg (fun hh => h hh.symm)]
  | cons kv rest ih =>
    by_cases hk : kv.1 = key
    · rw [addCP_cons_eq kv rest key r l d hk, lookupKey_cons]
      rw [if_neg (fun hh => h hh.symm), lookupKey_map_other rest key k _ h,
        lookupKey_cons, if_neg (fun hh : kv.1 = k => h (by rw [← hh, hk]))]
    · rw [addCP_cons_ne kv rest key r l d hk, lookupKey_cons, lookupKey_cons]
      by_cases h2 : kv.1 = k
      · rw [if_pos h2, if_pos h2]
      · rw [if_neg h2, if_neg h2]
        exact ih

theorem addCP_keys (ps : List (String × Pattern)) (key : String)
    (r : List Nat → List RMatch) (l : List Nat) (d : String) :
    (addCustomPattern ps key r l d).map (fun kv => kv.1) =
      if ps.any (fun kv => decide (kv.1 = key)) then ps.map (fun kv => kv.1)
      else ps.map (fun kv => kv.1) ++ [key] := by
  unfold addCustomPattern
  by_cases hp : ps.any (fun kv => decide (kv.1 = key))
  · rw [if_pos hp, if_pos hp, List.map_map]
    refine List.map_congr_left ?_
    intro kv _
    by_cases hk : kv.1 = key
    · simp [hk]
    · simp [hk]
  · rw [if_neg hp, if_neg hp]
    simp

theorem removePattern_absent (ps : List (String × Pattern)) (key : String)
    (h : ps.any (fun kv => decide (kv.1 = key)) = false) :
    removePattern ps key = ps := by
  unfold removePattern
  rw [List.filter_eq_self]
  intro kv hkv
  have := List.any_eq_false.mp h kv hkv
  simpa using this

/-- C9: registry keys are unique handles — adding a pattern under an
existing key overwrites that rule in place (every other key's rule and the
key sequence are unchanged), adding under a fresh key appends it, and
removing an absent key leaves the registry exactly as it was. -/
theorem C9_registry_ops (patterns : List (String × Pattern)) (key : String)
    (regex : List Nat → List RMatch) (label : List Nat) (description : String) :
    lookupKey (addCustomPattern patterns key regex label description) key =
        some ⟨regex, label, description⟩ ∧
      (∀ k, k ≠ key →
        lookupKey (addCustomPattern patterns key regex label description) k =
          lookupKey patterns k) ∧
      ((addCustomPattern patterns key regex label description).map (fun kv => kv.1) =
        if patterns.any (fun kv => decide (kv.1 = key)) then
          patterns.map (fun kv => kv.1)
        else patterns.map (fun kv => kv.1) ++ [key]) ∧
      (patterns.any (fun kv => decide (kv.1 = key)) = false →
        removePattern patterns key = patterns) :=
  ⟨lookupKey_add_self patterns key regex label description,
   fun k hk => lookupKey_add_other patterns key k regex label description hk,
   addCP_keys patterns key regex label description,
   fun h => removePattern_absent patterns key h⟩

/-! ### C7 and C4: single-rule detection list in closed form -/

theorem mask_single_dets (key : String) (pat : Pattern) (t : List Nat) (ht : t ≠ []) :
    (mask [(key, pat)] t none).detections =
      (withC ((pat.matcher t).filter (fun m => !isBrk m.str))
          ((pat.matcher t).filter (fun m => !isBrk m.str)).length).map
        (detOf key pat) := by
  unfold mask
  rw [if_neg ht]
  simp only [usedRules]
  rw [runRules_cons, runRules_nil, procDets]
  simp only [List.nil_append]
  rw [List.filter_reverse, ← List.map_reverse, withCAsc_reverse]
  simp only [List.length_reverse, Nat.zero_add]

/-- C7 (amended): placeholders have the exact shape
`[<Label>_<fromCharCode(64+c)>]` with a per-rule counter starting at 1 and
incremented after each masked match, but the matches are consumed in
reverse text order: with `n` masked matches of one rule, the first match
in text order receives the letter numbered `n` and the last match receives
`A`. -/
theorem C7_placeholder_format_amended (key : String) (pat : Pattern) (t : List Nat)
    (ht : t ≠ []) :
    (mask [(key, pat)] t none).detections =
      (withC ((pat.matcher t).filter (fun m => !isBrk m.str))
          ((pat.matcher t).filter (fun m => !isBrk m.str)).length).map
        (detOf key pat) :=
  mask_single_dets key pat t ht

/-- C7 counterexample: one rule labelled `L` (76) matching the two `x`
(120) occurrences of `"xyx"`: the first match in text order is masked as
`[L_B]` and the second as `[L_A]`, refuting "the 1st match yields
`[Label_A]`, the 2nd `[Label_B]`". -/
theorem C7_letters_reversed_cex :
    ((mask [("p", litRule [120] [76] "x")] [120, 121, 120] none).detections.map
        (fun d => d.masked)) = [mkPh [76] 2, mkPh [76] 1] ∧
      mkPh [76] 2 = [91, 76, 95, 66, 93] ∧ mkPh [76] 1 = [91, 76, 95, 65, 93] := by
  decide

theorem C7_placeholder_format_witness :
    (mask [("p", litRule [120] [76] "x")] [120, 121, 120] none).detections =
      (withC (((litRule [120] [76] "x").matcher [120, 121, 120]).filter
          (fun m => !isBrk m.str))
        (((litRule [120] [76] "x").matcher [120, 121, 120]).filter
          (fun m => !isBrk m.str)).length).map (detOf "p" (litRule [120] [76] "x")) :=
  C7_placeholder_format_amended "p" (litRule [120] [76] "x") [120, 121, 120] (by decide)

/-- C4 (amended): when all detections come from a single active rule, the
returned detection list is ordered left-to-right by the matches' start
offsets in the source text; the cross-rule part of the claim is false
(see the counterexample). -/
theorem C4_order_single_rule_amended (key : String) (pat : Pattern) (t : List Nat)
    (h : sortedIdxB (pat.matcher t) = true) :
    ((mask [(key, pat)] t none).detections).Pairwise
      (fun d e => d.startIndex < e.startIndex) := by
  by_cases ht : t = []
  · subst ht; simp [mask]
  · rw [mask_single_dets key pat t ht, List.pairwise_map]
    simp only [detOf]
    have hp := sortedIdxB_pairwise (pat.matcher t) h
    have hf : ((pat.matcher t).filter (fun m => !isBrk m.str)).Pairwise
        (fun a b => a.idx < b.idx) := List.Pairwise.filter _ hp
    have hw : ((withC ((pat.matcher t).filter (fun m => !isBrk m.str))
        ((pat.matcher t).filter (fun m => !isBrk m.str)).length).map
          (fun mc => mc.1)).Pairwise (fun a b => a.idx < b.idx) := by
      rw [withC_map_fst]; exact hf
    exact (@List.pairwise_map (RMatch × Nat) RMatch (fun mc => mc.1)
      (fun a b => a.idx < b.idx) _).mp hw

/-- C4 counterexample: two rules — the first matching `a` (label 76), the
second matching `b` (label 77) — on source text `"ab"`: the returned
detections are the `b` detection (recorded at offset 5 of the partially
masked text, not offset 1 of the source) followed by the `a` detection at
offset 0, so the list is neither ordered by source position nor are the
offsets source offsets. -/
theorem C4_order_cex :
    ((mask [("p", litRule [97] [76] "x"), ("q", litRule [98] [77] "y")] [97, 98]
        none).detections.map (fun d => (d.original, d.startIndex))) =
      [([98], 5), ([97], 0)] := by
  decide

theorem C4_order_single_rule_witness :
    ((mask [("p", litRule [97] [76] "x")] [98, 97, 99, 97] none).detections).Pairwise
      (fun d e => d.startIndex < e.startIndex) :=
  C4_order_single_rule_amended "p" (litRule [97] [76] "x") [98, 97, 99, 97] (by decide)

theorem C9_registry_ops_witness :
    lookupKey (addCustomPattern [("email", litRule [64] [69] "e")] "order"
        (findAllLit [79]) [79] "o") "order" = some ⟨findAllLit [79], [79], "o"⟩ ∧
      lookupKey (addCustomPattern [("email", litRule [64] [69] "e")] "order"
        (findAllLit [79]) [79] "o") "email" =
        lookupKey [("email", litRule [64] [69] "e")] "email" ∧
      removePattern [("email", litRule [64] [69] "e")] "order" =
        [("email", litRule [64] [69] "e")] := by
  obtain ⟨h1, h2, h3, h4⟩ := C9_registry_ops [("email", litRule [64] [69] "e")]
    "order" (findAllLit [79]) [79] "o"
  exact ⟨h1, h2 "email" (by decide), h4 (by decide)⟩

/-! ### C3: placeholder distinctness -/

theorem runRules_nodup (rules : List (String × Pattern)) (st : MaskState)
    (hkeys : (rules.map (fun kp => kp.1)).Nodup)
    (hlabs : (rules.map (fun kp => kp.2.label)).Nodup)
    (hcnt : ∀ kp ∈ rules, st.counter kp.1 = 0)
    (hbnd : ∀ kp ∈ rules, ∀ s : List Nat,
      ((kp.2.matcher s).filter (fun m => !isBrk m.str)).length ≤ 26)
    (hold : ∀ d ∈ st.detections, ∀ kp ∈ rules, ∀ c, 1 ≤ c → c ≤ 26 →
      d.masked ≠ mkPh kp.2.label c)
    (hnd : (st.detections.map (fun d => d.masked)).Nodup) :
    ((runRules rules st).detections.map (fun d => d.masked)).Nodup := by
  induction rules generalizing st with
  | nil => exact hnd
  | cons kp rest ih =>
    rw [runRules_cons]
    have hc0 : st.counter kp.1 = 0 := hcnt kp (List.mem_cons_self _ _)
    have hkey_notin : kp.1 ∉ rest.map (fun kp => kp.1) :=
      (List.nodup_cons.mp hkeys).1
    have hlab_notin : kp.2.label ∉ rest.map (fun kp => kp.2.label) :=
      (List.nodup_cons.mp hlabs).1
    set ms := (kp.2.matcher st.maskedText).reverse with hms
    set fl := ms.filter (fun m => !isBrk m.str) with hfl
    have hblen : fl.length ≤ 26 := by
      rw [hfl, hms, List.filter_reverse, List.length_reverse]
      exact hbnd kp (List.mem_cons_self _ _) st.maskedText
    set st' := processRev kp.1 kp.2 ms st with hst'
    have hdets' : st'.detections =
        st.detections ++ (withCAsc fl (st.counter kp.1)).map (detOf kp.1 kp.2) := by
      rw [hst', procDets]
    have hctr' : st'.counter = fun k =>
        if k = kp.1 then st.counter kp.1 + fl.length else st.counter k := by
      rw [hst', procCounter]
    -- placeholders of the new block are pairwise distinct and bounded
    have hblock : (((withCAsc fl (st.counter kp.1)).map (detOf kp.1 kp.2)).map
        (fun d => d.masked)).Nodup := by
      rw [List.map_map]
      have hpw := withCAsc_pairwise fl (st.counter kp.1)
      have hpw2 : (withCAsc fl (st.counter kp.1)).Pairwise
          (fun a b => a.2 < b.2 ∧ a.2 ≤ 26 ∧ b.2 ≤ 26) := by
        refine hpw.imp_of_mem ?_
        intro a b ha hb hab
        have hma := withCAsc_mem_c fl (st.counter kp.1) a ha
        have hmb := withCAsc_mem_c fl (st.counter kp.1) b hb
        refine ⟨hab, ?_, ?_⟩ <;> omega
      refine List.Pairwise.map _ ?_ hpw2
      intro a b hab heq
      have := mkPh_inj_c kp.2.label a.2 b.2 hab.2.1 hab.2.2 heq
      omega
    have hdisj : ∀ x ∈ st.detections.map (fun d => d.masked),
        x ∉ ((withCAsc fl (st.counter kp.1)).map (detOf kp.1 kp.2)).map
          (fun d => d.masked) := by
      intro x hx hmem
      obtain ⟨d, hd, hdx⟩ := List.mem_map.mp hx
      rw [List.map_map] at hmem
      obtain ⟨mc, hmc, hmcx⟩ := List.mem_map.mp hmem
      have hm := withCAsc_mem_c fl (st.counter kp.1) mc hmc
      have := hold d hd kp (List.mem_cons_self _ _) mc.2 (by omega) (by omega)
      apply this
      rw [← hdx] at hmcx
      simpa [detOf] using hmcx.symm
    apply ih st'
    · exact (List.nodup_cons.mp hkeys).2
    · exact (List.nodup_cons.mp hlabs).2
    · intro kp' hkp'
      rw [hctr']
      have : kp'.1 ≠ kp.1 := by
        intro hh
        exact hkey_notin (hh ▸ List.mem_map_of_mem (fun kp => kp.1) hkp')
      simp only [this, if_false]
      exact hcnt kp' (List.mem_cons_of_mem _ hkp')
    · exact fun kp' hkp' => hbnd kp' (List.mem_cons_of_mem _ hkp')
    · intro d hd kp' hkp' c hc1 hc26
      rw [hdets'] at hd
      rcases List.mem_append.mp hd with hh | hh
      · exact hold d hh kp' (List.mem_cons_of_mem _ hkp') c hc1 hc26
      · obtain ⟨mc, hmc, hmcd⟩ := List.mem_map.mp hh
        intro heq
        rw [← hmcd] at heq
        simp only [detOf] at heq
        have := (mkPh_lab_eq _ _ _ _ heq).1
        exact hlab_notin (this ▸ List.mem_map_of_mem (fun kp => kp.2.label) hkp')
    · rw [hdets', List.map_append]
      rw [List.nodup_append]
      exact ⟨hnd, hblock, hdisj⟩

/-- C3 (amended): all placeholders generated within one `mask` pass are
pairwise distinct provided the active rules carry pairwise-distinct labels
(and distinct keys, as a real registry guarantees) and no rule masks more
than 26 matches in a pass (the range in which the sequence-letter encoding
is injective).  With two rules sharing a label the claim fails (see the
counterexample). -/
theorem C3_placeholders_distinct_amended (patterns : List (String × Pattern))
    (t : List Nat) (en : Option (List String))
    (hkeys : ((usedRules patterns en).map (fun kp => kp.1)).Nodup)
    (hlabs : ((usedRules patterns en).map (fun kp => kp.2.label)).Nodup)
    (hbnd : ∀ kp ∈ usedRules patterns en, ∀ s : List Nat,
      ((kp.2.matcher s).filter (fun m => !isBrk m.str)).length ≤ 26) :
    ((mask patterns t en).detections.map (fun d => d.masked)).Nodup := by
  by_cases ht : t = []
  · subst ht; simp [mask]
  · simp only [mask, if_neg ht]
    rw [List.map_reverse, List.nodup_reverse]
    exact runRules_nodup (usedRules patterns en) ⟨t, [], [], fun _ => 0⟩
      hkeys hlabs (fun _ _ => rfl) hbnd (by simp) (by simp)

/-- C3 counterexample: two rules with the same label `L` (76) — one
matching `a` (97), one matching `b` (98) — both generate the placeholder
`[L_A]` on input `"ab"`, and the second `Map.set` overwrites the first
mapping entry, leaving `"a"` unrecoverable. -/
theorem C3_placeholder_collision_cex :
    ((mask [("p", litRule [97] [76] "x"), ("q", litRule [98] [76] "y")] [97, 98]
        none).detections.map (fun d => d.masked)) = [mkPh [76] 1, mkPh [76] 1] ∧
      ¬ ((mask [("p", litRule [97] [76] "x"), ("q", litRule [98] [76] "y")] [97, 98]
        none).detections.map (fun d => d.masked)).Nodup ∧
      (mask [("p", litRule [97] [76] "x"), ("q", litRule [98] [76] "y")] [97, 98]
        none).mappingTable = [([91, 76, 95, 65, 93], [98])] := by
  decide

theorem onceRule_bound (lit lab : List Nat) (d : String) : ∀ s : List Nat,
    (((onceRule lit lab d).matcher s).filter (fun m => !isBrk m.str)).length ≤ 26 := by
  intro s
  have h1 := List.length_filter_le (fun m => !isBrk m.str) ((findAllLit lit s).take 1)
  have h2 := List.length_take_le 1 (findAllLit lit s)
  simp only [onceRule] at h1 ⊢
  omega

theorem C3_placeholders_distinct_witness :
    ((mask [("p", onceRule [97] [76] "pa"), ("q", onceRule [98] [77] "qb")] [97, 98]
        none).detections.map (fun d => d.masked)).Nodup := by
  refine C3_placeholders_distinct_amended _ _ none (by decide) (by decide) ?_
  intro kp hkp s
  rcases List.mem_cons.mp hkp with h | h
  · subst h; exact onceRule_bound [97] [76] "pa" s
  · rw [List.mem_singleton] at h
    subst h; exact onceRule_bound [98] [77] "qb" s


/-! ### C10: detections and mapping table are coherent -/

theorem mapGet_cons (kv : List Nat × List Nat) (m : List (List Nat × List Nat))
    (k : List Nat) :
    mapGet (kv :: m) k = if kv.1 = k then some kv.2 else mapGet m k := by
  simp only [mapGet, List.find?]
  by_cases h : kv.1 = k
  · simp [h]
  · simp [h]

theorem mapGet_set_self (m : List (List Nat × List Nat)) (k v : List Nat) :
    mapGet (mapSet m k v) k = some v := by
  induction m with
  | nil => simp [mapSet, mapGet, List.find?]
  | cons kv rest ih =>
    by_cases hk : kv.1 = k
    · have ha : (kv :: rest).any (fun kv => decide (kv.1 = k)) = true := by simp [hk]
      simp only [mapSet, ha, if_true, List.map_cons, if_pos hk, mapGet_cons]
    · by_cases hr : rest.any (fun kv => decide (kv.1 = k)) = true
      · have ha : (kv :: rest).any (fun kv => decide (kv.1 = k)) = true := by
          simp only [List.any_cons, hr, Bool.or_true]
        have hm : mapSet rest k v =
            rest.map (fun kv => if kv.1 = k then (k, v) else kv) := by
          simp [mapSet, hr]
        simp only [mapSet, ha, if_true, List.map_cons, if_neg hk, mapGet_cons, hk,
          if_false]
        rw [← hm]
        exact ih
      · have ha : ¬ ((kv :: rest).any (fun kv => decide (kv.1 = k)) = true) := by
          simp only [List.any_cons, Bool.or_eq_true, decide_eq_true_eq]
          push_neg
          exact ⟨hk, fun hh => hr hh⟩
        have hm : mapSet rest k v = rest ++ [(k, v)] := by
          simp [mapSet, hr]
        unfold mapSet
        rw [if_neg ha, List.cons_append, mapGet_cons, if_neg hk, ← hm]
        exact ih

theorem mapGet_set_other (m : List (List Nat × List Nat)) (k v k' : List Nat)
    (h : k' ≠ k) : mapGet (mapSet m k v) k' = mapGet m k' := by
  induction m with
  | nil =>
    simp only [mapSet, List.any_nil, Bool.false_eq_true, if_false, List.nil_append,
      mapGet_cons]
    rw [if_neg (fun hh => h hh.symm)]
  | cons kv rest ih =>
    by_cases ha : (kv :: rest).any (fun kv => decide (kv.1 = k)) = true
    · simp only [mapSet, ha, if_true, List.map_cons]
      by_cases hk : kv.1 = k
      · rw [if_pos hk, mapGet_cons, mapGet_cons]
        rw [if_neg (fun hh => h hh.symm), if_neg (fun hh : kv.1 = k' => h (hk ▸ hh).symm)]
        by_cases hr : rest.any (fun kv => decide (kv.1 = k)) = true
        · have hm : mapSet rest k v =
              rest.map (fun kv => if kv.1 = k then (k, v) else kv) := by
            simp [mapSet, hr]
          rw [← hm]
          exact ih
        · -- the map over rest only rewrites entries whose key is k;
          -- since none exists, the map is the identity on lookups at k'
          clear ih ha
          induction rest with
          | nil => rfl
          | cons kv2 rest2 ih2 =>
            have hk2 : ¬ (kv2.1 = k) := by
              intro hh
              exact hr (by simp [List.any_cons, hh])
            have hr2 : ¬ (rest2.any (fun kv => decide (kv.1 = k)) = true) := by
              intro hh
              exact hr (by simp [List.any_cons, hh])
            simp only [List.map_cons, if_neg hk2, mapGet_cons]
            by_cases hx : kv2.1 = k'
            · rw [if_pos hx, if_pos hx]
            · rw [if_neg hx, if_neg hx]
              exact ih2 hr2
      · rw [if_neg hk, mapGet_cons, mapGet_cons]
        have hr : rest.any (fun kv => decide (kv.1 = k)) = true := by
          rcases (List.any_eq_true).mp ha with ⟨x, hx, hxk⟩
          rcases List.mem_cons.mp hx with hh | hh
          · exact absurd (of_decide_eq_true (hh ▸ hxk)) hk
          · exact (List.any_eq_true).mpr ⟨x, hh, hxk⟩
        have hm : mapSet rest k v =
            rest.map (fun kv => if kv.1 = k then (k, v) else kv) := by
          simp [mapSet, hr]
        by_cases hx : kv.1 = k'
        · rw [if_pos hx, if_pos hx]
        · rw [if_neg hx, if_neg hx, ← hm]
          exact ih
    · have hk : ¬ (kv.1 = k) := by
        intro hh
        exact ha (by simp [List.any_cons, hh])
      have hr : ¬ (rest.any (fun kv => decide (kv.1 = k)) = true) := by
        intro hh
        exact ha (by simp [List.any_cons, hh])
      have hm : mapSet rest k v = rest ++ [(k, v)] := by
        simp [mapSet, hr]
      unfold mapSet
      rw [if_neg ha, List.cons_append, mapGet_cons, mapGet_cons]
      by_cases hx : kv.1 = k'
      · rw [if_pos hx, if_pos hx]
      · rw [if_neg hx, if_neg hx, ← hm]
        exact ih

theorem procInv1 (key : String) (pat : Pattern) (ms : List RMatch) (st : MaskState)
    (h : ∀ d ∈ st.detections, ∃ v, mapGet st.mapping d.masked = some v) :
    ∀ d ∈ (processRev key pat ms st).detections,
      ∃ v, mapGet (processRev key pat ms st).mapping d.masked = some v := by
  induction ms generalizing st with
  | nil => exact h
  | cons m rest ih =>
    simp only [processRev]
    apply ih
    by_cases hb : isBrk m.str
    · simp only [maskStep, if_pos hb]
      exact h
    · simp only [maskStep, if_neg hb]
      intro d hd
      rcases List.mem_append.mp hd with hh | hh
      · obtain ⟨v, hv⟩ := h d hh
        by_cases he : d.masked = mkPh pat.label (st.counter key + 1)
        · exact ⟨m.str, by rw [he, mapGet_set_self]⟩
        · exact ⟨v, by rw [mapGet_set_other _ _ _ _ he]; exact hv⟩
      · rw [List.mem_singleton] at hh
        subst hh
        exact ⟨m.str, mapGet_set_self _ _ _⟩

theorem procInv2 (key : String) (pat : Pattern) (ms : List RMatch) (st : MaskState)
    (h : ∀ d ∈ st.detections, mapGet st.mapping d.masked = some d.original)
    (hnd : ((processRev key pat ms st).detections.map (fun d => d.masked)).Nodup) :
    ∀ d ∈ (processRev key pat ms st).detections,
      mapGet (processRev key pat ms st).mapping d.masked = some d.original := by
  induction ms generalizing st with
  | nil => exact h
  | cons m rest ih =>
    simp only [processRev] at hnd ⊢
    apply ih _ ?_ hnd
    by_cases hb : isBrk m.str
    · simp only [maskStep, if_pos hb]
      exact h
    · simp only [maskStep, if_neg hb]
      intro d hd
      rcases List.mem_append.mp hd with hh | hh
      · have hne : d.masked ≠ mkPh pat.label (st.counter key + 1) := by
          have hdd := procDets key pat rest (maskStep key pat m st)
          rw [hdd, List.map_append] at hnd
          have hleft := hnd.of_append_left
          simp only [maskStep, if_neg hb, List.map_append] at hleft
          have hdisj := List.disjoint_of_nodup_append hleft
          intro heq
          refine hdisj (List.mem_map_of_mem (fun d => d.masked) hh) ?_
          simp only [List.map_cons, List.map_nil, List.mem_singleton]
          exact heq
        rw [mapGet_set_other _ _ _ _ hne]
        exact h d hh
      · rw [List.mem_singleton] at hh
        subst hh
        exact mapGet_set_self _ _ _

theorem runInv1 (rules : List (String × Pattern)) (st : MaskState)
    (h : ∀ d ∈ st.detections, ∃ v, mapGet st.mapping d.masked = some v) :
    ∀ d ∈ (runRules rules st).detections,
      ∃ v, mapGet (runRules rules st).mapping d.masked = some v := by
  induction rules generalizing st with
  | nil => exact h
  | cons kp rest ih =>
    rw [runRules_cons]
    exact ih _ (procInv1 kp.1 kp.2 _ st h)

theorem runInv2 (rules : List (String × Pattern)) (st : MaskState)
    (h : ∀ d ∈ st.detections, mapGet st.mapping d.masked = some d.original)
    (hnd : ((runRules rules st).detections.map (fun d => d.masked)).Nodup) :
    ∀ d ∈ (runRules rules st).detections,
      mapGet (runRules rules st).mapping d.masked = some d.original := by
  induction rules generalizing st with
  | nil => exact h
  | cons kp rest ih =>
    rw [runRules_cons] at hnd ⊢
    set st' := processRev kp.1 kp.2 ((kp.2.matcher st.maskedText).reverse) st with hst'
    obtain ⟨tail, htail⟩ := runRules_dets_append rest st'
    have hnd' : (st'.detections.map (fun d => d.masked)).Nodup := by
      rw [htail, List.map_append] at hnd
      exact hnd.of_append_left
    exact ih st' (procInv2 kp.1 kp.2 _ st h hnd') hnd

/-- C10: for every detection `d` of a `mask` result, the returned mapping
table contains `d.masked` as a key, and — whenever the generated
placeholders are pairwise distinct — maps it to `d.original`.  (The table
returned is the fresh copy `new Map(this.mappingTable)`; in this pure
embedding a result is a value that later calls cannot alter.) -/
theorem C10_detection_mapping_coherent (patterns : List (String × Pattern))
    (t : List Nat) (en : Option (List String)) :
    (∀ d ∈ (mask patterns t en).detections,
      ∃ v, mapGet (mask patterns t en).mappingTable d.masked = some v) ∧
      (((mask patterns t en).detections.map (fun d => d.masked)).Nodup →
        ∀ d ∈ (mask patterns t en).detections,
          mapGet (mask patterns t en).mappingTable d.masked = some d.original) := by
  by_cases ht : t = []
  · subst ht
    simp [mask]
  · constructor
    · intro d hd
      simp only [mask, if_neg ht] at hd ⊢
      exact runInv1 (usedRules patterns en) ⟨t, [], [], fun _ => 0⟩ (by simp) d
        (List.mem_reverse.mp hd)
    · intro hnd d hd
      simp only [mask, if_neg ht] at hnd hd ⊢
      rw [List.map_reverse, List.nodup_reverse] at hnd
      exact runInv2 (usedRules patterns en) ⟨t, [], [], fun _ => 0⟩ (by simp) hnd d
        (List.mem_reverse.mp hd)

theorem C10_detection_mapping_coherent_witness :
    (∃ v, mapGet (mask [("p", litRule [97] [76] "x")] [98, 97] none).mappingTable
      (mkPh [76] 1) = some v) ∧
      mapGet (mask [("p", litRule [97] [76] "x")] [98, 97] none).mappingTable
        (mkPh [76] 1) = some [97] := by
  obtain ⟨h1, h2⟩ :=
    C10_detection_mapping_coherent [("p", litRule [97] [76] "x")] [98, 97] none
  have hd : (⟨"p", "x", [97], mkPh [76] 1, 1, 2⟩ : Detection) ∈
      (mask [("p", litRule [97] [76] "x")] [98, 97] none).detections := by decide
  exact ⟨h1 _ hd, h2 (by decide) _ hd⟩

/-! ### String-scanning lemmas for the round-trip proof -/

theorem prefB_iff (p : List Nat) : ∀ s : List Nat,
    prefB p s = true ↔ s.take p.length = p := by
  induction p with
  | nil => intro s; simp [prefB]
  | cons a p ih =>
    intro s
    cases s with
    | nil => simp [prefB]
    | cons b s' =>
      simp only [prefB, Bool.and_eq_true, beq_iff_eq, ih, List.length_cons,
        List.take_succ_cons, List.cons.injEq]
      exact ⟨fun ⟨h1, h2⟩ => ⟨h1.symm, h2⟩, fun ⟨h1, h2⟩ => ⟨h1.symm, h2⟩⟩

theorem prefB_length (p s : List Nat) (h : prefB p s = true) : p.length ≤ s.length := by
  have := (prefB_iff p s).mp h
  have hl := congrArg List.length this
  simp only [List.length_take] at hl
  omega

theorem prefB_refl_append (p x : List Nat) : prefB p (p ++ x) = true := by
  rw [prefB_iff, List.take_append_of_le_length (le_refl p.length), List.take_length]

theorem prefB_mem (p s : List Nat) (h : prefB p s = true) : ∀ a ∈ p, a ∈ s := by
  intro a ha
  rw [prefB_iff] at h
  rw [← h] at ha
  exact List.mem_of_mem_take ha

theorem subB_cons_false (p : List Nat) (c : Nat) (s : List Nat)
    (h : subB p (c :: s) = false) : prefB p (c :: s) = false ∧ subB p s = false := by
  simpa only [subB, Bool.or_eq_false_iff] using h

theorem hasPhShape_append_right (a b : List Nat)
    (h : hasPhShape (a ++ b) = false) : hasPhShape b = false := by
  induction a with
  | nil => exact h
  | cons c a' ih =>
    simp only [List.cons_append, hasPhShape, Bool.or_eq_false_iff] at h
    exact ih h.2

theorem hasPhShape_append_left (a b : List Nat)
    (h : hasPhShape (a ++ b) = false) : hasPhShape a = false := by
  induction a with
  | nil => rfl
  | cons c a' ih =>
    simp only [List.cons_append, hasPhShape, Bool.or_eq_false_iff,
      Bool.and_eq_false_iff] at h ⊢
    refine ⟨?_, ih h.2⟩
    rcases h.1 with hh | hh
    · exact Or.inl hh
    · refine Or.inr ?_
      simp only [decide_eq_false_iff_not] at hh ⊢
      exact fun hm => hh (List.mem_append.mpr (Or.inl hm))

theorem hasPhShape_seg (t : List Nat) (x y : Nat) (h : hasPhShape t = false) :
    hasPhShape ((t.take x).drop y) = false := by
  have h1 : hasPhShape (t.take x) = false := by
    have := List.take_append_drop x t
    rw [← this] at h
    exact hasPhShape_append_left _ _ h
  have := List.take_append_drop y (t.take x)
  rw [← this] at h1
  exact hasPhShape_append_right _ _ h1

theorem hasPhShape_drop (t : List Nat) (y : Nat) (h : hasPhShape t = false) :
    hasPhShape (t.drop y) = false := by
  have := List.take_append_drop y t
  rw [← this] at h
  exact hasPhShape_append_right _ _ h

theorem hasPhShape_witness (a b : List Nat) (hb : (93 : Nat) ∈ b) :
    hasPhShape (a ++ 91 :: b) = true := by
  induction a with
  | nil => simp [hasPhShape, hb]
  | cons c a' ih => simp [hasPhShape, ih]

theorem noShape_no_sub (q : List Nat) (hq : (93 : Nat) ∈ q) :
    ∀ s : List Nat, hasPhShape s = false → subB (91 :: q) s = false := by
  intro s
  induction s with
  | nil => intro _; rfl
  | cons c s' ih =>
    intro h
    simp only [hasPhShape, Bool.or_eq_false_iff, Bool.and_eq_false_iff] at h
    simp only [subB, Bool.or_eq_false_iff]
    refine ⟨?_, ih h.2⟩
    simp only [prefB, Bool.and_eq_false_iff]
    by_cases hc : c = 91
    · subst hc
      rcases h.1 with hh | hh
      · simp at hh
      · refine Or.inr ?_
        rcases hpq : prefB q s' with _ | _
        · rfl
        · exfalso
          simp only [decide_eq_false_iff_not] at hh
          exact hh (prefB_mem q s' hpq 93 hq)
    · exact Or.inl (by simpa using fun hh => hc hh.symm)

theorem getSubAux_id (m b a : List Nat) : ∀ r : List Nat, (36 : Nat) ∉ r →
    getSubAux m b a r = r := by
  intro r
  induction r with
  | nil => intro _; rfl
  | cons c r' ih =>
    intro h
    have hc : ¬ (c = 36) := fun hh => h (hh ▸ List.mem_cons_self _ _)
    have h' : (36 : Nat) ∉ r' := fun hh => h (List.mem_cons_of_mem _ hh)
    cases r' with
    | nil => simp [getSubAux, hc]
    | cons d r2 =>
      simp only [getSubAux, if_neg hc]
      rw [ih h']

theorem jsSkip (p r s : List Nat) (hp : p.isEmpty = false) :
    ∀ k rem pos, jsReplaceAllAux p r s rem pos k =
      jsReplaceAllAux p r s (rem.drop k) (pos + k) 0 := by
  intro k
  induction k with
  | zero => intro rem pos; simp
  | succ k ih =>
    intro rem pos
    cases rem with
    | nil =>
      simp only [jsReplaceAllAux, List.drop_nil, hp, Bool.false_and,
        Bool.false_eq_true, if_false]
    | cons c rest =>
      have h1 : jsReplaceAllAux p r s (c :: rest) pos (k + 1) =
          jsReplaceAllAux p r s rest (pos + 1) k := by
        simp [jsReplaceAllAux]
      rw [h1, ih rest (pos + 1), List.drop_succ_cons]
      congr 1
      omega

theorem js_eq_plain_aux (p r s : List Nat) (h : (36 : Nat) ∉ r) :
    ∀ n rem pos, rem.length ≤ n →
      jsReplaceAllAux p r s rem pos 0 = replaceAllPlain p r rem := by
  intro n
  induction n with
  | zero =>
    intro rem pos hlen
    have : rem = [] := List.length_eq_zero.mp (Nat.le_zero.mp hlen)
    subst this
    simp only [jsReplaceAllAux, replaceAllPlain]
    by_cases hp : p.isEmpty
    · simp only [hp, getSubAux_id _ _ _ r h]
      simp
    · simp [hp]
  | succ n ih =>
    intro rem pos hlen
    cases rem with
    | nil =>
      simp only [jsReplaceAllAux, replaceAllPlain]
      by_cases hp : p.isEmpty
      · simp only [hp, getSubAux_id _ _ _ r h]
        simp
      · simp [hp]
    | cons c rest =>
      have hlen' : rest.length ≤ n := by
        simp only [List.length_cons] at hlen; omega
      simp only [jsReplaceAllAux, replaceAllPlain, Nat.lt_irrefl, if_false,
        gt_iff_lt, Nat.zero_sub]
      by_cases hcond : (prefB p (c :: rest) && !p.isEmpty) = true
      · rw [if_pos hcond, if_pos hcond, getSubAux_id _ _ _ r h]
        have hpne : p.isEmpty = false := by
          cases hpe : p.isEmpty
          · rfl
          · rw [hpe] at hcond
            simp at hcond
        rw [jsSkip p r s hpne (p.length - 1) rest (pos + 1)]
        rw [ih (rest.drop (p.length - 1)) (pos + 1 + (p.length - 1))
          (le_trans (by simpa using List.length_drop_le (p.length - 1) rest) hlen')]
      · rw [if_neg hcond, if_neg hcond]
        by_cases hp : p.isEmpty = true
        · rw [if_pos hp, if_pos hp, getSubAux_id _ _ _ r h]
          rw [ih rest (pos + 1) hlen']
        · rw [if_neg hp, if_neg hp]
          rw [ih rest (pos + 1) hlen']

theorem js_eq_plain (p r s : List Nat) (h : (36 : Nat) ∉ r) :
    jsReplaceAll p r s = replaceAllPlain p r s :=
  js_eq_plain_aux p r s h s.length s 0 (le_refl _)

theorem replacePlain_no_occ (p r : List Nat) : ∀ s : List Nat,
    subB p s = false → replaceAllPlain p r s = s := by
  intro s
  induction s with
  | nil =>
    intro h
    have hp : ¬ (p.isEmpty = true) := by
      intro hh
      rw [List.isEmpty_iff] at hh
      subst hh
      simp [subB, prefB] at h
    simp only [replaceAllPlain]
    simp [hp]
  | cons c s' ih =>
    intro h
    obtain ⟨h1, h2⟩ := subB_cons_false p c s' h
    simp only [replaceAllPlain, h1, Bool.false_and, Bool.false_eq_true, if_false]
    have hp : ¬ (p.isEmpty = true) := by
      intro hh
      rw [List.isEmpty_iff] at hh
      subst hh
      simp [prefB] at h1
    rw [if_neg hp, ih h2]

theorem replacePlain_once (p r B : List Nat) (hp : p ≠ [])
    (hB : subB p B = false) : ∀ A : List Nat,
    (∀ i, i < A.length → prefB p ((A ++ p ++ B).drop i) = false) →
    replaceAllPlain p r (A ++ p ++ B) = A ++ r ++ B := by
  intro A
  induction A with
  | nil =>
    intro _
    simp only [List.nil_append]
    cases p with
    | nil => exact absurd rfl hp
    | cons p0 p' =>
      have hpre : prefB (p0 :: p') ((p0 :: p') ++ B) = true :=
        prefB_refl_append (p0 :: p') B
      simp only [List.cons_append, replaceAllPlain] at hpre ⊢
      rw [if_pos (by simp [hpre])]
      have hdrop : (p' ++ B).drop ((p0 :: p').length - 1) = B := by
        simp only [List.length_cons, Nat.add_sub_cancel]
        exact List.drop_left p' B
      rw [hdrop, replacePlain_no_occ (p0 :: p') r B hB]
  | cons a A' ih =>
    intro hA
    have hassoc : (a :: A') ++ p ++ B = a :: (A' ++ p ++ B) := by
      simp only [List.cons_append]
    rw [hassoc]
    have h0 : prefB p (a :: (A' ++ p ++ B)) = false := by
      have h1 := hA 0 (by simp)
      rw [List.drop_zero, hassoc] at h1
      exact h1
    have hcondf : (prefB p (a :: (A' ++ p ++ B)) && !p.isEmpty) = false := by
      rw [h0]
      rfl
    have hpe : p.isEmpty = false := by
      cases hpe2 : p.isEmpty
      · rfl
      · rw [List.isEmpty_iff] at hpe2
        exact absurd hpe2 hp
    simp only [replaceAllPlain, h0, Bool.false_and, Bool.false_eq_true, if_false, hpe]
    rw [List.cons_append, List.cons_append]
    congr 1
    refine ih ?_
    intro i hi
    have h2 := hA (i + 1) (by simp only [List.length_cons]; omega)
    rw [hassoc] at h2
    simpa using h2

/-! ### Offset arithmetic and match-list helpers -/

theorem dropSplit (t : List Nat) (a b : Nat) (h : a ≤ b) :
    t.drop a = (t.take b).drop a ++ t.drop b := by
  conv_lhs => rw [← List.take_append_drop b t]
  by_cases ha : a ≤ (t.take b).length
  · rw [List.drop_append_of_le_length ha]
  · push_neg at ha
    rw [List.length_take] at ha
    have hat : t.length < a := by omega
    have h1 : t.drop a = [] := List.drop_eq_nil_of_le (by omega)
    have h2 : (t.take b).drop a = [] :=
      List.drop_eq_nil_of_le (by rw [List.length_take]; omega)
    have h3 : t.drop b = [] := List.drop_eq_nil_of_le (by omega)
    rw [← List.take_append_drop b t] at h1
    rw [h1, h2, h3]
    rfl

theorem substr_split (t str : List Nat) (i : Nat)
    (hstr : (t.drop i).take str.length = str) :
    t.drop i = str ++ t.drop (i + str.length) := by
  conv_lhs => rw [← List.take_append_drop str.length (t.drop i)]
  rw [hstr, List.drop_drop]

theorem chainEndsB_cons (a : RMatch) (l : List RMatch)
    (h : chainEndsB (a :: l) = true) :
    chainEndsB l = true ∧ ∀ b ∈ l.head?, a.idx + a.str.length ≤ b.idx := by
  cases l with
  | nil => exact ⟨rfl, by simp⟩
  | cons b l' =>
    simp only [chainEndsB, Bool.and_eq_true, decide_eq_true_eq] at h
    exact ⟨h.2, by simpa using h.1⟩

theorem chainEndsB_append_single (x : RMatch) : ∀ ms : List RMatch,
    chainEndsB (ms ++ [x]) = true →
    chainEndsB ms = true ∧ ∀ m ∈ ms, m.idx + m.str.length ≤ x.idx := by
  intro ms
  induction ms with
  | nil => exact fun _ => ⟨rfl, by simp⟩
  | cons a ms' ih =>
    intro h
    rw [List.cons_append] at h
    obtain ⟨h1, h2⟩ := chainEndsB_cons a (ms' ++ [x]) h
    obtain ⟨h3, h4⟩ := ih h1
    constructor
    · cases ms' with
      | nil => rfl
      | cons b ms'' =>
        simp only [chainEndsB, Bool.and_eq_true, decide_eq_true_eq]
        refine ⟨?_, h3⟩
        have := h2 b (by simp)
        exact this
    · intro m hm
      rcases List.mem_cons.mp hm with hh | hh
      · subst hh
        cases ms' with
        | nil =>
          have := h2 x (by simp)
          exact this
        | cons b ms'' =>
          have hab := h2 b (by simp)
          have hbx := h4 b (List.mem_cons_self _ _)
          omega
      · exact h4 m hh

theorem jsCharCode_small (c : Nat) (h : c ≤ 26) : jsCharCode (64 + c) = 64 + c := by
  unfold jsCharCode
  omega

theorem mkPh_tail_no91 (lab : List Nat) (c : Nat) (h91 : (91 : Nat) ∉ lab)
    (hc : c ≤ 26) : (91 : Nat) ∉ lab ++ [95, jsCharCode (64 + c), 93] := by
  rw [jsCharCode_small c hc]
  intro hmem
  rcases List.mem_append.mp hmem with hh | hh
  · exact h91 hh
  · simp only [List.mem_cons, List.not_mem_nil, or_false] at hh
    rcases hh with hh | hh | hh <;> omega

theorem mkPh_tail_93 (lab : List Nat) (c : Nat) :
    (93 : Nat) ∈ lab ++ [95, jsCharCode (64 + c), 93] := by
  refine List.mem_append.mpr (Or.inr ?_)
  simp

theorem noBrk (t str : List Nat) (i : Nat) (hsh : hasPhShape t = false)
    (hstr : (t.drop i).take str.length = str) : isBrk str = false := by
  cases hb : isBrk str
  · rfl
  · exfalso
    simp only [isBrk, Bool.and_eq_true, decide_eq_true_eq] at hb
    obtain ⟨hhead, hlast⟩ := hb
    cases str with
    | nil => simp at hhead
    | cons c mid =>
      simp only [List.head?_cons, Option.some.injEq] at hhead
      subst hhead
      have h93 : (93 : Nat) ∈ mid := by
        have hmem := List.mem_of_mem_getLast? hlast
        rcases List.mem_cons.mp hmem with hh | hh
        · omega
        · exact hh
      have hsplit := substr_split t (91 :: mid) i hstr
      have ht : t = t.take i ++ ((91 :: mid) ++ t.drop (i + (91 :: mid).length)) := by
        conv_lhs => rw [← List.take_append_drop i t]
        rw [hsplit]
      have : hasPhShape t = true := by
        rw [ht]
        have : (91 :: mid) ++ t.drop (i + (91 :: mid).length) =
            91 :: (mid ++ t.drop (i + (91 :: mid).length)) := by simp
        rw [this]
        exact hasPhShape_witness _ _ (List.mem_append.mpr (Or.inl h93))
      rw [this] at hsh
      exact Bool.true_eq_false.mp hsh

/-! ### Single-rule pass in closed form -/

theorem spliceFrom_take_drop (lab t : List Nat) (items : List (RMatch × Nat))
    (i e : Nat) (hie : i ≤ e) (het : e ≤ t.length)
    (hfirst : ∀ mc ∈ items.head?, e ≤ mc.1.idx) :
    (spliceFrom lab t 0 items).take i = t.take i ∧
      (spliceFrom lab t 0 items).drop e = spliceFrom lab t e items := by
  cases items with
  | nil =>
    simp [spliceFrom]
  | cons mc rest =>
    obtain ⟨m, c⟩ := mc
    have hme : e ≤ m.idx := hfirst (m, c) (by simp)
    simp only [spliceFrom, List.drop_zero, List.append_assoc]
    constructor
    · rw [List.take_append_of_le_length (by rw [List.length_take]; omega),
        List.take_take, Nat.min_eq_left (by omega)]
    · rw [List.drop_append_of_le_length (by rw [List.length_take]; omega)]

theorem processRev_single_sorted (key : String) (pat : Pattern) (t : List Nat) :
    ∀ (ms : List RMatch) (D : List Detection) (M : List (List Nat × List Nat))
      (γ : String → Nat),
    chainEndsB ms = true →
    (∀ m ∈ ms, m.idx + m.str.length ≤ t.length) →
    (∀ m ∈ ms, isBrk m.str = false) →
    processRev key pat ms.reverse ⟨t, D, M, γ⟩ =
      ⟨spliceFrom pat.label t 0 (withC ms (γ key + ms.length)),
       D ++ ((withC ms (γ key + ms.length)).reverse).map (detOf key pat),
       ((withC ms (γ key + ms.length)).reverse).foldl
         (fun acc mc => mapSet acc (mkPh pat.label mc.2) mc.1.str) M,
       fun k => if k = key then γ key + ms.length else γ k⟩ := by
  intro ms
  induction ms with
  | nil =>
    intro D M γ _ _ _
    have hc : (fun k => if k = key then γ key + ([] : List RMatch).length else γ k) = γ := by
      funext k
      by_cases h : k = key
      · simp [h]
      · simp [h]
    simp only [List.reverse_nil, processRev, withC, spliceFrom, List.drop_zero,
      List.map_nil, List.append_nil, List.foldl_nil, hc]
  | cons m1 rest ih =>
    intro D M γ hch hbd hnb
    obtain ⟨hch_rest, hfirst⟩ := chainEndsB_cons m1 rest hch
    rw [List.reverse_cons, processRev_append]
    rw [ih D M γ hch_rest (fun m hm => hbd m (List.mem_cons_of_mem _ hm))
      (fun m hm => hnb m (List.mem_cons_of_mem _ hm))]
    have hb1 : isBrk m1.str = false := hnb m1 (List.mem_cons_self _ _)
    simp only [processRev, maskStep, hb1, Bool.false_eq_true, if_false]
    have hsp := spliceFrom_take_drop pat.label t (withC rest (γ key + rest.length))
      m1.idx (m1.idx + m1.str.length) (by omega) (hbd m1 (List.mem_cons_self _ _))
      (by
        intro mc hmc
        cases rest with
        | nil => simp [withC] at hmc
        | cons m2 r2 =>
          simp only [withC, List.head?_cons, Option.mem_def, Option.some.injEq] at hmc
          subst hmc
          exact hfirst m2 (by simp))
    have hN : γ key + (m1 :: rest).length = γ key + rest.length + 1 := by
      simp only [List.length_cons]
      omega
    have hwc : withC (m1 :: rest) (γ key + (m1 :: rest).length) =
        (m1, γ key + rest.length + 1) :: withC rest (γ key + rest.length) := by
      rw [hN]
      simp only [withC, Nat.add_sub_cancel]
    rw [hwc]
    simp only [List.reverse_cons, List.map_append, List.map_cons, List.map_nil,
      List.foldl_append, List.foldl_cons, List.foldl_nil]
    congr 1
    · rw [hsp.1, hsp.2]
      simp only [spliceFrom, List.drop_zero]
      simp
    · simp only [detOf, List.append_assoc]
      simp
    · funext k
      by_cases h : k = key
      · subst h
        simp only [eq_self_iff_true, if_true, List.length_cons]
        omega
      · simp [h]

/-! ### Round-trip machinery: mapping-table and splice algebra -/

theorem withC_mem_fst (l : List RMatch) (N : Nat) (mc : RMatch × Nat)
    (h : mc ∈ withC l N) : mc.1 ∈ l := by
  induction l generalizing N with
  | nil => simp [withC] at h
  | cons m rest ih =>
    simp only [withC] at h
    rcases List.mem_cons.mp h with hh | hh
    · subst hh
      exact List.mem_cons_self _ _
    · exact List.mem_cons_of_mem _ (ih (N - 1) hh)

theorem withC_pairwise (l : List RMatch) (N : Nat) (h : l.length ≤ N) :
    (withC l N).Pairwise (fun a b => b.2 < a.2) := by
  induction l generalizing N with
  | nil => simp [withC]
  | cons m rest ih =>
    have hr : rest.length ≤ N - 1 := by
      simp only [List.length_cons] at h
      omega
    simp only [withC]
    refine List.Pairwise.cons ?_ (ih (N - 1) hr)
    intro mc hmc
    have := withC_mem_c rest (N - 1) hr mc hmc
    simp only [List.length_cons] at h
    simp only
    omega

theorem mkPh_length (lab : List Nat) (c : Nat) : (mkPh lab c).length = lab.length + 4 := by
  simp [mkPh]

theorem mkPh_head (lab : List Nat) (c : Nat) (X : List Nat) :
    (mkPh lab c ++ X).head? = some 91 := by
  simp [mkPh]

theorem mkPh_ne_nil (lab : List Nat) (c : Nat) : mkPh lab c ≠ [] := by
  simp [mkPh]

theorem mapSet_fresh (M : List (List Nat × List Nat)) (k v : List Nat)
    (h : M.any (fun kv => decide (kv.1 = k)) = false) :
    mapSet M k v = M ++ [(k, v)] := by
  simp [mapSet, h]

theorem foldl_mapSet_fresh (lab : List Nat) :
    ∀ (items : List (RMatch × Nat)) (M : List (List Nat × List Nat)),
    (∀ mc ∈ items, M.any (fun kv => decide (kv.1 = mkPh lab mc.2)) = false) →
    items.Pairwise (fun a b => mkPh lab a.2 ≠ mkPh lab b.2) →
    items.foldl (fun acc mc => mapSet acc (mkPh lab mc.2) mc.1.str) M =
      M ++ items.map (fun mc => (mkPh lab mc.2, mc.1.str)) := by
  intro items
  induction items with
  | nil =>
    intro M _ _
    simp
  | cons mc rest ih =>
    intro M hM hpw
    obtain ⟨hhd, htl⟩ := List.pairwise_cons.mp hpw
    simp only [List.foldl_cons, List.map_cons]
    have h1 : mapSet M (mkPh lab mc.2) mc.1.str = M ++ [(mkPh lab mc.2, mc.1.str)] :=
      mapSet_fresh M _ _ (hM mc (List.mem_cons_self _ _))
    have hM' : ∀ mc' ∈ rest,
        (M ++ [(mkPh lab mc.2, mc.1.str)]).any
          (fun kv => decide (kv.1 = mkPh lab mc'.2)) = false := by
      intro mc' hmc'
      rw [List.any_append]
      simp [hM mc' (List.mem_cons_of_mem _ hmc'), hhd mc' hmc']
    rw [h1, ih _ hM' htl]
    simp

theorem spliceFrom_concat (lab t : List Nat) (m : RMatch) (c : Nat) :
    ∀ (items : List (RMatch × Nat)) (pos : Nat),
    spliceFrom lab t pos (items ++ [(m, c)]) =
      spliceUpTo lab t pos m.idx items ++ mkPh lab c ++
        t.drop (m.idx + m.str.length) := by
  intro items
  induction items with
  | nil =>
    intro pos
    simp [spliceFrom, spliceUpTo]
  | cons mc rest ih =>
    intro pos
    obtain ⟨m1, c1⟩ := mc
    simp only [List.cons_append, List.append_eq, spliceFrom, spliceUpTo, ih,
      List.append_assoc]

theorem spliceUpTo_close (lab t str : List Nat) (stop : Nat)
    (hsub : (t.drop stop).take str.length = str) :
    ∀ (items : List (RMatch × Nat)) (pos : Nat), pos ≤ stop →
    (∀ mc ∈ items, mc.1.idx + mc.1.str.length ≤ stop) →
    spliceUpTo lab t pos stop items ++ str ++ t.drop (stop + str.length) =
      spliceFrom lab t pos items := by
  intro items
  induction items with
  | nil =>
    intro pos hps _
    simp only [spliceUpTo, spliceFrom]
    have h1 : t.drop pos = (t.take stop).drop pos ++ t.drop stop := dropSplit t pos stop hps
    have h2 : t.drop stop = str ++ t.drop (stop + str.length) := substr_split t str stop hsub
    rw [h1, h2, List.append_assoc]
  | cons mc rest ih =>
    intro pos hps hbd
    obtain ⟨m1, c1⟩ := mc
    have hend : m1.idx + m1.str.length ≤ stop := hbd (m1, c1) (List.mem_cons_self _ _)
    simp only [spliceUpTo, spliceFrom, List.append_assoc]
    rw [← ih (m1.idx + m1.str.length) hend (fun mc h => hbd mc (List.mem_cons_of_mem _ h))]
    simp [List.append_assoc]

theorem spliceFrom_ne_nil (lab t : List Nat) (ht : t ≠ []) :
    ∀ items : List (RMatch × Nat), spliceFrom lab t 0 items ≠ [] := by
  intro items
  cases items with
  | nil => simpa [spliceFrom] using ht
  | cons mc rest =>
    obtain ⟨m, c⟩ := mc
    simp [spliceFrom, mkPh]

theorem segNoOcc (q : List Nat) (h91 : (91 : Nat) ∉ q) (h93 : (93 : Nat) ∈ q) :
    ∀ f : List Nat, hasPhShape f = false → ∀ T : List Nat,
      (T = [] ∨ T.head? = some 91) → ∀ i, i < f.length →
      prefB (91 :: q) ((f ++ T).drop i) = false := by
  intro f
  induction f with
  | nil =>
    intro _ T _ i hi
    simp at hi
  | cons c f' ihf =>
    intro hsh T hT i hi
    simp only [hasPhShape, Bool.or_eq_false_iff, Bool.and_eq_false_iff] at hsh
    cases i with
    | zero =>
      rw [List.drop_zero, List.cons_append]
      by_cases hc : c = 91
      · subst hc
        suffices hq : prefB q (f' ++ T) = false by simp [prefB, hq]
        rcases hsh.1 with hh | hh
        · simp at hh
        · simp only [decide_eq_false_iff_not] at hh
          cases hq : prefB q (f' ++ T)
          · rfl
          · exfalso
            have hqeq := (prefB_iff q (f' ++ T)).mp hq
            by_cases hlq : q.length ≤ f'.length
            · rw [List.take_append_of_le_length hlq] at hqeq
              refine hh ?_
              have h93' : (93 : Nat) ∈ f'.take q.length := by
                rw [hqeq]
                exact h93
              exact List.mem_of_mem_take h93'
            · push_neg at hlq
              rw [List.take_append_eq_append_take,
                List.take_all_of_le (le_of_lt hlq)] at hqeq
              rcases hT with hT | hT
              · subst hT
                have hle := congrArg List.length hqeq
                simp only [List.take_nil, List.append_nil, List.length_append] at hle
                omega
              · cases T with
                | nil => simp at hT
                | cons t0 T' =>
                  simp only [List.head?_cons, Option.some.injEq] at hT
                  subst hT
                  obtain ⟨k', hk'⟩ : ∃ k', q.length - f'.length = k' + 1 :=
                    ⟨q.length - f'.length - 1, by omega⟩
                  rw [hk', List.take_succ_cons] at hqeq
                  refine h91 ?_
                  rw [← hqeq]
                  exact List.mem_append.mpr (Or.inr (List.mem_cons_self _ _))
      · have hc' : ¬ ((91 : Nat) = c) := fun hh => hc hh.symm
        simp [prefB, hc']
    | succ j =>
      have hd : ((c :: f') ++ T).drop (j + 1) = (f' ++ T).drop j := by
        rw [List.cons_append, List.drop_succ_cons]
      rw [hd]
      exact ihf hsh.2 T hT j (by simp only [List.length_cons] at hi; omega)

theorem phNoOcc (q q' : List Nat) (hlen : q'.length = q.length) (hne : q' ≠ q)
    (h91 : (91 : Nat) ∉ q') (S : List Nat) :
    ∀ i, i < q'.length + 1 →
      prefB (91 :: q) (((91 :: q') ++ S).drop i) = false := by
  intro i hi
  cases i with
  | zero =>
    rw [List.drop_zero, List.cons_append]
    suffices hq : prefB q (q' ++ S) = false by simp [prefB, hq]
    cases hq : prefB q (q' ++ S)
    · rfl
    · exfalso
      have hqeq := (prefB_iff q (q' ++ S)).mp hq
      have htake : (q' ++ S).take q.length = q' := by
        rw [List.take_append_eq_append_take, List.take_all_of_le (by omega),
          Nat.sub_eq_zero_of_le (by omega), List.take_zero, List.append_nil]
      rw [htake] at hqeq
      exact hne hqeq
  | succ j =>
    have hj : j < q'.length := by omega
    have hd : ((91 :: q') ++ S).drop (j + 1) = q'.drop j ++ S := by
      rw [List.cons_append, List.drop_succ_cons,
        List.drop_append_of_le_length (le_of_lt hj)]
    rw [hd]
    cases hq' : q'.drop j with
    | nil =>
      exfalso
      have := congrArg List.length hq'
      simp only [List.length_drop, List.length_nil] at this
      omega
    | cons c rest2 =>
      have hc : c ∈ q' := by
        have hcm : c ∈ q'.drop j := by
          rw [hq']
          exact List.mem_cons_self _ _
        exact List.mem_of_mem_drop hcm
      have hc91 : ¬ ((91 : Nat) = c) := fun hh => h91 (hh ▸ hc)
      simp [prefB, hc91]

theorem noOccUpTo (lab t : List Nat) (cN : Nat) (hcN : cN ≤ 26)
    (h91 : (91 : Nat) ∉ lab) (hsh : hasPhShape t = false)
    (stop : Nat) (T : List Nat) (hT : T.head? = some 91) :
    ∀ items : List (RMatch × Nat),
    (∀ mc ∈ items, mc.2 ≤ 26 ∧ mc.2 ≠ cN) →
    ∀ pos i : Nat, i < (spliceUpTo lab t pos stop items).length →
      prefB (mkPh lab cN) ((spliceUpTo lab t pos stop items ++ T).drop i) = false := by
  have hq91 : (91 : Nat) ∉ lab ++ [95, jsCharCode (64 + cN), 93] := mkPh_tail_no91 lab cN h91 hcN
  have hq93 : (93 : Nat) ∈ lab ++ [95, jsCharCode (64 + cN), 93] := mkPh_tail_93 lab cN
  intro items
  induction items with
  | nil =>
    intro _ pos i hi
    simp only [spliceUpTo] at hi ⊢
    exact segNoOcc _ hq91 hq93 _ (hasPhShape_seg t stop pos hsh) T (Or.inr hT) i hi
  | cons mc rest ih =>
    intro hmcs pos i hi
    obtain ⟨m, c⟩ := mc
    have hc26 : c ≤ 26 := (hmcs (m, c) (List.mem_cons_self _ _)).1
    have hccN : c ≠ cN := (hmcs (m, c) (List.mem_cons_self _ _)).2
    have hsplice : spliceUpTo lab t pos stop ((m, c) :: rest) =
        (t.take m.idx).drop pos ++ (mkPh lab c ++
          spliceUpTo lab t (m.idx + m.str.length) stop rest) := by
      simp [spliceUpTo, List.append_assoc]
    rw [hsplice] at hi ⊢
    rw [List.append_assoc, List.append_assoc]
    by_cases h1 : i < ((t.take m.idx).drop pos).length
    · exact segNoOcc _ hq91 hq93 _ (hasPhShape_seg t m.idx pos hsh) _
        (Or.inr (mkPh_head lab c _)) i h1
    · push_neg at h1
      by_cases h2 : i < ((t.take m.idx).drop pos).length + (mkPh lab c).length
      · obtain ⟨j, hj⟩ : ∃ j, i = ((t.take m.idx).drop pos).length + j :=
          ⟨i - ((t.take m.idx).drop pos).length, by omega⟩
        subst hj
        rw [List.drop_append]
        have hjb : j < (lab ++ [95, jsCharCode (64 + c), 93]).length + 1 := by
          rw [mkPh_length] at h2
          simp only [List.length_append, List.length_cons, List.length_nil]
          omega
        have hlen2 : (lab ++ [95, jsCharCode (64 + c), 93]).length =
            (lab ++ [95, jsCharCode (64 + cN), 93]).length := by
          simp
        have hne2 : lab ++ [95, jsCharCode (64 + c), 93] ≠
            lab ++ [95, jsCharCode (64 + cN), 93] := by
          intro hh
          refine hccN (mkPh_inj_c lab c cN hc26 hcN ?_)
          show 91 :: (lab ++ [95, jsCharCode (64 + c), 93]) =
            91 :: (lab ++ [95, jsCharCode (64 + cN), 93])
          exact congrArg (fun l => 91 :: l) hh
        have hq91c : (91 : Nat) ∉ lab ++ [95, jsCharCode (64 + c), 93] :=
          mkPh_tail_no91 lab c h91 hc26
        have hcon := phNoOcc (lab ++ [95, jsCharCode (64 + cN), 93])
          (lab ++ [95, jsCharCode (64 + c), 93]) hlen2 hne2 hq91c
          (spliceUpTo lab t (m.idx + m.str.length) stop rest ++ T) j hjb
        exact hcon
      · push_neg at h2
        obtain ⟨j, hj⟩ : ∃ j,
            i = ((t.take m.idx).drop pos).length + ((mkPh lab c).length + j) :=
          ⟨i - ((t.take m.idx).drop pos).length - (mkPh lab c).length, by omega⟩
        subst hj
        rw [List.drop_append, List.drop_append]
        refine ih (fun mc' h => hmcs mc' (List.mem_cons_of_mem _ h))
          (m.idx + m.str.length) j ?_
        simp only [List.length_append] at hi
        omega

theorem restore_fold (lab t : List Nat) (hsh : hasPhShape t = false)
    (h91 : (91 : Nat) ∉ lab) (hds : (36 : Nat) ∉ t) (N : Nat) (hN : N ≤ 26) :
    ∀ ms : List RMatch, ms.length ≤ N → chainEndsB ms = true →
    (∀ m ∈ ms, m.idx + m.str.length ≤ t.length ∧
      (t.drop m.idx).take m.str.length = m.str) →
    ((withC ms N).reverse.map (fun mc => (mkPh lab mc.2, mc.1.str))).foldl
      (fun acc kv => jsReplaceAll kv.1 kv.2 acc) (spliceFrom lab t 0 (withC ms N)) = t := by
  intro ms
  induction ms using List.reverseRecOn with
  | nil =>
    intro _ _ _
    simp [withC, spliceFrom]
  | append_singleton ms' mN ih =>
    intro hlen hch hbd
    have hlen' : ms'.length ≤ N := by
      simp only [List.length_append, List.length_cons, List.length_nil] at hlen
      omega
    obtain ⟨hch', hend⟩ := chainEndsB_append_single mN ms' hch
    have hbdN := hbd mN (List.mem_append.mpr (Or.inr (List.mem_cons_self _ _)))
    rw [withC_append_single, List.reverse_append]
    simp only [List.reverse_cons, List.reverse_nil, List.nil_append,
      List.singleton_append, List.map_cons, List.foldl_cons]
    have h36 : (36 : Nat) ∉ mN.str := by
      intro hmem
      refine hds ?_
      rw [← hbdN.2] at hmem
      exact List.mem_of_mem_drop (List.mem_of_mem_take hmem)
    have hcb : N - ms'.length ≤ 26 := by omega
    have hkey : jsReplaceAll (mkPh lab (N - ms'.length)) mN.str
        (spliceFrom lab t 0 (withC ms' N ++ [(mN, N - ms'.length)])) =
        spliceFrom lab t 0 (withC ms' N) := by
      rw [js_eq_plain _ _ _ h36, spliceFrom_concat]
      have hsubB : subB (mkPh lab (N - ms'.length))
          (t.drop (mN.idx + mN.str.length)) = false :=
        noShape_no_sub _ (mkPh_tail_93 lab _) _ (hasPhShape_drop t _ hsh)
      have hA : ∀ i, i < (spliceUpTo lab t 0 mN.idx (withC ms' N)).length →
          prefB (mkPh lab (N - ms'.length))
            ((spliceUpTo lab t 0 mN.idx (withC ms' N) ++ mkPh lab (N - ms'.length) ++
              t.drop (mN.idx + mN.str.length)).drop i) = false := by
        intro i hi
        rw [List.append_assoc]
        refine noOccUpTo lab t (N - ms'.length) hcb h91 hsh mN.idx _
          (mkPh_head lab _ _) (withC ms' N) ?_ 0 i hi
        intro mc hmc
        have := withC_mem_c ms' N hlen' mc hmc
        omega
      rw [replacePlain_once _ _ _ (mkPh_ne_nil lab _) hsubB _ hA]
      exact spliceUpTo_close lab t mN.str mN.idx hbdN.2 (withC ms' N) 0 (Nat.zero_le _)
        (fun mc hmc => hend mc.1 (withC_mem_fst ms' N mc hmc))
    rw [hkey]
    exact ih hlen' hch' (fun m hm => hbd m (List.mem_append.mpr (Or.inl hm)))

/-- C1: the spec claims `restore(masked, table)` recovers the original text
for any `mask` output.  As stated this is false (see `C1_roundtrip_cex`: with
two rules, a later rule can match across an earlier rule's placeholder, and
`restore` — replaying entries in insertion order — then rebuilds a hybrid
string instead of the input).  Amended: for a single active rule the round
trip holds whenever the input contains no placeholder-shaped substring and
no `$` (36), the rule's label contains no `[` (91), the rule's matcher
returns well-formed non-overlapping in-order matches, and at most 26 matches
are produced (so the sequence letters stay in `A`–`Z` and placeholders stay
pairwise distinct). -/
theorem C1_roundtrip_single_rule_amended (key : String) (pat : Pattern) (t : List Nat)
    (hsh : hasPhShape t = false) (hds : (36 : Nat) ∉ t)
    (h91 : (91 : Nat) ∉ pat.label)
    (hwf : matchesWfB t (pat.matcher t) = true)
    (hn : (pat.matcher t).length ≤ 26) :
    restore (mask [(key, pat)] t none).maskedText
      (mask [(key, pat)] t none).mappingTable = t := by
  by_cases ht : t = []
  · subst ht
    simp [mask, restore]
  · simp only [matchesWfB, Bool.and_eq_true, List.all_eq_true, decide_eq_true_eq] at hwf
    obtain ⟨hch, hall⟩ := hwf
    have hnb : ∀ m ∈ pat.matcher t, isBrk m.str = false := fun m hm =>
      noBrk t m.str m.idx hsh (hall m hm).2
    have hfin := processRev_single_sorted key pat t (pat.matcher t) [] [] (fun _ => 0)
      hch (fun m hm => (hall m hm).1) hnb
    have hrun : runRules (usedRules [(key, pat)] none) ⟨t, [], [], fun _ => 0⟩ =
        processRev key pat ((pat.matcher t).reverse) ⟨t, [], [], fun _ => 0⟩ := rfl
    simp only [mask, if_neg ht]
    rw [hrun, hfin]
    simp only [Nat.zero_add]
    have hpwr : ((withC (pat.matcher t) (pat.matcher t).length).reverse).Pairwise
        (fun a b => mkPh pat.label a.2 ≠ mkPh pat.label b.2) := by
      have hpw := withC_pairwise (pat.matcher t) (pat.matcher t).length (le_refl _)
      have hpr : ((withC (pat.matcher t) (pat.matcher t).length).reverse).Pairwise
          (fun a b => a.2 < b.2) := (List.pairwise_reverse).mpr hpw
      refine hpr.imp_of_mem ?_
      intro a b ha hb hab heq
      have ha' := withC_mem_c (pat.matcher t) (pat.matcher t).length (le_refl _) a
        (List.mem_reverse.mp ha)
      have hb' := withC_mem_c (pat.matcher t) (pat.matcher t).length (le_refl _) b
        (List.mem_reverse.mp hb)
      have := mkPh_inj_c pat.label a.2 b.2 (by omega) (by omega) heq
      omega
    have hmap := foldl_mapSet_fresh pat.label
      ((withC (pat.matcher t) (pat.matcher t).length).reverse) []
      (fun mc _ => rfl) hpwr
    rw [hmap, List.nil_append]
    simp only [restore]
    rw [if_neg (spliceFrom_ne_nil pat.label t ht _)]
    exact restore_fold pat.label t hsh h91 hds (pat.matcher t).length hn (pat.matcher t)
      (le_refl _) hch hall

/-- C1 counterexample: with the two-rule registry whose second rule matches
into the first rule's placeholder, the round trip fails on the clean input
"abcx" even though the input contains no placeholder-shaped substring. -/
theorem C1_roundtrip_cex :
    hasPhShape [97, 98, 99, 120] = false ∧
    restore
      (mask [("a", litRule [97, 98, 99] [76] "r1"),
             ("b", litRule [76, 95, 65, 93, 120] [77] "r2")] [97, 98, 99, 120] none).maskedText
      (mask [("a", litRule [97, 98, 99] [76] "r1"),
             ("b", litRule [76, 95, 65, 93, 120] [77] "r2")] [97, 98, 99, 120] none).mappingTable ≠
      [97, 98, 99, 120] := by
  decide

theorem C1_roundtrip_single_rule_witness :
    restore (mask [("p", litRule [97] [76] "a")] [98, 97, 99, 97] none).maskedText
      (mask [("p", litRule [97] [76] "a")] [98, 97, 99, 97] none).mappingTable =
      [98, 97, 99, 97] :=
  C1_roundtrip_single_rule_amended "p" (litRule [97] [76] "a") [98, 97, 99, 97]
    (by decide) (by decide) (by decide) (by decide) (by decide)

/-! ### restore on tables whose keys do or do not occur -/

theorem jsAux_no_occ (p r s : List Nat) (hp : p ≠ []) :
    ∀ rem pos, subB p rem = false → jsReplaceAllAux p r s rem pos 0 = rem := by
  have hpe : p.isEmpty = false := by
    cases p with
    | nil => exact absurd rfl hp
    | cons a p' => rfl
  intro rem
  induction rem with
  | nil =>
    intro pos _
    simp [jsReplaceAllAux, hpe]
  | cons c rest ih =>
    intro pos h
    obtain ⟨h1, h2⟩ := subB_cons_false p c rest h
    simp only [jsReplaceAllAux, gt_iff_lt, Nat.lt_irrefl, if_false, h1, hpe,
      Bool.false_and, Bool.false_eq_true]
    rw [ih (pos + 1) h2]

theorem jsReplaceAll_no_occ (p r s : List Nat) (hp : p ≠ []) (h : subB p s = false) :
    jsReplaceAll p r s = s :=
  jsAux_no_occ p r s hp s 0 h

theorem restore_foreign (t : List Nat) : ∀ m : List (List Nat × List Nat),
    (∀ kv ∈ m, kv.1 ≠ [] ∧ subB kv.1 t = false) →
    m.foldl (fun acc kv => jsReplaceAll kv.1 kv.2 acc) t = t := by
  intro m
  induction m with
  | nil =>
    intro _
    rfl
  | cons kv m' ih =>
    intro h
    rw [List.foldl_cons, jsReplaceAll_no_occ kv.1 kv.2 t
      (h kv (List.mem_cons_self _ _)).1 (h kv (List.mem_cons_self _ _)).2]
    exact ih (fun kv' h' => h kv' (List.mem_cons_of_mem _ h'))

/-- C6: the spec describes `restore` as replacing every occurrence of every
mapping key (placeholder) by its stored original, leaving everything else
unchanged.  Two corrections are needed.  First, the replacement goes through
`String.prototype.replaceAll` with a *string* replacement argument, so
GetSubstitution `$`-patterns in the stored original are expanded instead of
inserted literally (see `C6_restore_dollar_cex`, where the original `$&`
yields the placeholder itself back).  Amended: (a) a table none of whose
(non-empty) keys occurs in the text returns the text unchanged — in
particular an empty table does; and (b) a single-entry table whose key
occurs exactly once, with a `$`-free original, performs exactly the literal
substitution the spec describes. -/
theorem C6_restore_spec_amended (m : List (List Nat × List Nat))
    (t A B ph orig : List Nat)
    (hph : ph ≠ []) (hds : (36 : Nat) ∉ orig)
    (hB : subB ph B = false)
    (hA : ∀ i, i < A.length → prefB ph ((A ++ ph ++ B).drop i) = false)
    (hforeign : ∀ kv ∈ m, kv.1 ≠ [] ∧ subB kv.1 t = false) :
    restore t m = t ∧
    restore (A ++ ph ++ B) [(ph, orig)] = A ++ orig ++ B := by
  constructor
  · rw [restore]
    by_cases ht : t = []
    · simp [ht]
    · rw [if_neg ht]
      exact restore_foreign t m hforeign
  · have hne : A ++ ph ++ B ≠ [] := by
      intro hh
      have := congrArg List.length hh
      simp only [List.length_append, List.length_nil] at this
      have hphl : ph.length ≠ 0 := fun h0 => hph (List.length_eq_zero.mp h0)
      omega
    rw [restore, if_neg hne, List.foldl_cons, List.foldl_nil,
      js_eq_plain _ _ _ hds, replacePlain_once ph orig B hph hB A hA]

/-- C6 counterexample: a stored original containing `$&` (code units 36, 38)
is not inserted literally — GetSubstitution expands it to the matched
placeholder, so `restore` returns the placeholder unchanged instead of the
original. -/
theorem C6_restore_dollar_cex :
    restore [91, 80, 95, 65, 93] [([91, 80, 95, 65, 93], [36, 38])] =
      [91, 80, 95, 65, 93] ∧
    ([91, 80, 95, 65, 93] : List Nat) ≠ [36, 38] := by
  decide

theorem C6_restore_spec_witness :
    restore [120] [([91, 80, 93], [97])] = [120] ∧
    restore ([120] ++ [91, 80, 93] ++ [122]) [([91, 80, 93], [121, 121])] =
      [120] ++ [121, 121] ++ [122] :=
  C6_restore_spec_amended [([91, 80, 93], [97])] [120] [120] [122] [91, 80, 93]
    [121, 121] (by decide) (by decide) (by decide) (by decide) (by decide)
